import Mathlib

/-!
# eosio.msig — the multi-signature proposal contract

A shallow embedding of `src/eosio.msig.cpp` (contract version 1.6.0) and a
verification of its proposal/approval state machine.

* The three persistent stores (`proposal`, `approvals2`, the legacy `approvals`
  table, and the `invals` registry) are keyed stores: a scope and a primary key
  select at most one row.
* Every action is a function from the store it starts on to a `Run`: the status
  it ended with, the working store at that point, the authorization queries it
  made and the deferred transactions it sent.
* `apply_action` is the host's side of the story: an aborted action's writes
  are discarded.
-/

namespace eosio

/-! ## Data model -/

/-- Raw bytes, `std::vector<char>`. -/
abbrev Bytes := List (Fin 256)

/-- Modelled from the spec: the header `eosiolib/action.hpp` is not part of the
sources; an authority level is an (account, permission) pair of 64-bit names. -/
structure permission_level where
  actor : Nat
  permission : Nat
deriving DecidableEq, Repr

/-- Modelled from the spec: `eosio.msig.hpp` is not part of the sources; an
approval entry is an authority level with a `time_point` (microseconds, signed
64-bit). -/
structure approval where
  level : permission_level
  time : Int
deriving DecidableEq, Repr

/-- Modelled from the spec: row of the `proposal` table declared in the absent
`eosio.msig.hpp`; its primary key is `proposal_name`. -/
structure proposal where
  proposal_name : Nat
  packed_transaction : Bytes
deriving DecidableEq, Repr

/-- Modelled from the spec: row of the timestamped `approvals2` table declared in
the absent `eosio.msig.hpp`; its primary key is `proposal_name`. -/
structure approvals_info where
  proposal_name : Nat
  requested_approvals : List approval
  provided_approvals : List approval
deriving DecidableEq, Repr

/-- Modelled from the spec: row of the legacy `approvals` table declared in the
absent `eosio.msig.hpp`: the same shape without timestamps. -/
structure old_approvals_info where
  proposal_name : Nat
  requested_approvals : List permission_level
  provided_approvals : List permission_level
deriving DecidableEq, Repr

/-- Modelled from the spec: row of the `invals` table declared in the absent
`eosio.msig.hpp`; its primary key is `account`. -/
structure invalidation where
  account : Nat
  last_invalidation_time : Int
deriving DecidableEq, Repr

/-- The part of `transaction_header` the contract reads: `expiration`, a
`time_point_sec` (unsigned 32-bit seconds). -/
structure transaction_header where
  expiration : Nat
deriving DecidableEq, Repr

/-- A scoped table of the host database: scope and primary key select at most
one row. -/
def Table (α : Type) : Type := Nat → Nat → Option α

namespace Table

/-- The table without rows. -/
def empty {α : Type} : Table α := fun _ _ => none

/-- The effect of `multi_index::find` under a scope. -/
def find {α : Type} (t : Table α) (scope key : Nat) : Option α := t scope key

/-- Write (`some row`) or remove (`none`) the row stored under a scope and key;
`emplace`, `modify` and `erase` all end in this. -/
def put {α : Type} (t : Table α) (scope key : Nat) (row : Option α) : Table α :=
  fun sc k => if sc = scope ∧ k = key then row else t sc k

end Table

/-- The persistent state of the contract. `inv_table` lives under the single
scope `_self`, so it is keyed by the account alone. -/
structure Database where
  proptable : Table proposal
  apptable : Table approvals_info
  old_apptable : Table old_approvals_info
  inv_table : Nat → Option invalidation

/-- The state before any action has run. -/
def Database.empty : Database :=
  { proptable := Table.empty, apptable := Table.empty, old_apptable := Table.empty,
    inv_table := fun _ => none }

/-- What the host gives one action: the block time (`current_time()`, unsigned
64-bit microseconds), the authorizations the action carries, and the host
functions the contract calls. -/
structure Env where
  current_time : Nat
  authorization : List permission_level
  check_transaction_authorization : Bytes → List permission_level → Int
  sha256 : Bytes → Nat
  unpack_header : Bytes → Option transaction_header

/-- The ways an action aborts. -/
inductive Error where
  | missing_authority
  | read
  | transaction_expired
  | proposal_exists
  | authorization_failed
  | proposal_not_found
  | hash_mismatch
  | not_requested
  | not_granted
  | cannot_cancel
  | key_exists
deriving DecidableEq, Repr

/-- The message each abort carries. -/
def Error.message : Error → String
  | .missing_authority => "missing required authority"
  | .read => "read"
  | .transaction_expired => "transaction expired"
  | .proposal_exists => "proposal with the same name exists"
  | .authorization_failed => "transaction authorization failed"
  | .proposal_not_found => "proposal not found"
  | .hash_mismatch => "hash mismatch"
  | .not_requested => "approval is not on the list of requested approvals"
  | .not_granted => "no approval previously granted"
  | .cannot_cancel => "cannot cancel until expiration"
  | .key_exists => "could not insert object, most likely a uniqueness constraint was violated"

/-- One `send_deferred` call. -/
structure deferred_transaction where
  sender_id : Nat
  payer : Nat
  serialized_transaction : Bytes
deriving DecidableEq, Repr

/-- What one action did: `status` is `none` when it ran to its end and the abort
otherwise; `db` is the working store at that point; `queried` lists the calls of
`check_transaction_authorization`, `deferred` the calls of `send_deferred`. -/
structure Run where
  status : Option Error
  db : Database
  queried : List (Bytes × List permission_level)
  deferred : List deferred_transaction

/-! ## Host helpers -/

/-- The cast `static_cast<int64_t>( current_time() )`. -/
def to_int64 (n : Nat) : Int :=
  if n % 2 ^ 64 < 2 ^ 63 then ((n % 2 ^ 64 : Nat) : Int) else ((n % 2 ^ 64 : Nat) : Int) - 2 ^ 64

/-- The block time as a `time_point`. -/
def current_time_point (env : Env) : Int := to_int64 env.current_time

/-- The conversion `time_point_sec( time_point )`:
`uint32_t( microseconds / 1000000 )`. -/
def time_point_sec (t : Int) : Nat := (Int.tdiv t 1000000 % 2 ^ 32).toNat

/-- The check `require_auth( name )`: some authorization of the action is of this
account. -/
def has_auth (env : Env) (account : Nat) : Bool :=
  env.authorization.any (fun l => decide (l.actor = account))

/-- The check `require_auth( permission_level )`: the action carries exactly this
level. -/
def has_auth2 (env : Env) (level : permission_level) : Bool :=
  env.authorization.any (fun l => decide (l = level))

/-- The iterator `std::find_if` returns, as an index; `xs.length` is `end()`. -/
def find_if {α : Type} (p : α → Bool) : List α → Nat
  | [] => 0
  | x :: xs => if p x then 0 else find_if p xs + 1

/-- The loop of `exec` over `provided_approvals` (timestamped record): a level is
pushed when the registry has no row for its actor or the row is older than the
approval. -/
def collect_approvals (inv_table : Nat → Option invalidation) :
    List approval → List permission_level → List permission_level
  | [], approvals => approvals
  | p :: rest, approvals =>
    match inv_table p.level.actor with
    | none => collect_approvals inv_table rest (approvals ++ [p.level])
    | some it =>
      if it.last_invalidation_time < p.time then
        collect_approvals inv_table rest (approvals ++ [p.level])
      else collect_approvals inv_table rest approvals

/-- The loop of `exec` over `provided_approvals` (legacy record): a level is
pushed only when the registry has no row for its actor. -/
def collect_old_approvals (inv_table : Nat → Option invalidation) :
    List permission_level → List permission_level → List permission_level
  | [], approvals => approvals
  | level :: rest, approvals =>
    match inv_table level.actor with
    | none => collect_old_approvals inv_table rest (approvals ++ [level])
    | some _ => collect_old_approvals inv_table rest approvals

/-- The action stops here with an abort. -/
def Run.abort (e : Error) (db : Database) (queried : List (Bytes × List permission_level)) : Run :=
  { status := some e, db := db, queried := queried, deferred := [] }

namespace multisig

/-! ## The six actions -/

/-- The action `multisig::propose`; `trx` is what remains of the action data
after `proposer`, `proposal_name` and `requested` were read. -/
def propose (env : Env) (s : Database) (proposer proposal_name : Nat)
    (requested : List permission_level) (trx : Bytes) : Run :=
  match env.unpack_header trx with
  | none => Run.abort .read s []
  | some trx_header =>
    if !has_auth env proposer then Run.abort .missing_authority s []
    else if !decide (trx_header.expiration ≥ time_point_sec (current_time_point env)) then
      Run.abort .transaction_expired s []
    else if (s.proptable.find proposer proposal_name).isSome then
      Run.abort .proposal_exists s []
    else
      let res := env.check_transaction_authorization trx requested
      if !decide (res > 0) then Run.abort .authorization_failed s [(trx, requested)]
      else
        let prop : proposal := { proposal_name := proposal_name, packed_transaction := trx }
        let s1 : Database := { s with proptable := s.proptable.put proposer proposal_name (some prop) }
        if (s1.apptable.find proposer proposal_name).isSome then
          Run.abort .key_exists s1 [(trx, requested)]
        else
          let a : approvals_info :=
            { proposal_name := proposal_name
              requested_approvals := requested.map (fun level => { level := level, time := 0 })
              provided_approvals := [] }
          { status := none
            db := { s1 with apptable := s1.apptable.put proposer proposal_name (some a) }
            queried := [(trx, requested)]
            deferred := [] }

/-- The action `multisig::approve`. -/
def approve (env : Env) (s : Database) (proposer proposal_name : Nat)
    (level : permission_level) (proposal_hash : Option Nat) : Run :=
  if !has_auth2 env level then Run.abort .missing_authority s []
  else
    let hash_failure : Option Error :=
      match proposal_hash with
      | none => none
      | some h =>
        match s.proptable.find proposer proposal_name with
        | none => some .proposal_not_found
        | some prop => if env.sha256 prop.packed_transaction = h then none else some .hash_mismatch
    match hash_failure with
    | some e => Run.abort e s []
    | none =>
      match s.apptable.find proposer proposal_name with
      | some apps =>
        let itr := find_if (fun a => decide (a.level = level)) apps.requested_approvals
        if itr = apps.requested_approvals.length then Run.abort .not_requested s []
        else
          let a : approvals_info :=
            { apps with
              provided_approvals :=
                apps.provided_approvals ++ [{ level := level, time := current_time_point env }]
              requested_approvals := apps.requested_approvals.eraseIdx itr }
          { status := none
            db := { s with apptable := s.apptable.put proposer proposal_name (some a) }
            queried := []
            deferred := [] }
      | none =>
        match s.old_apptable.find proposer proposal_name with
        | none => Run.abort .proposal_not_found s []
        | some apps =>
          let itr := find_if (fun l => decide (l = level)) apps.requested_approvals
          if itr = apps.requested_approvals.length then Run.abort .not_requested s []
          else
            let a : old_approvals_info :=
              { apps with
                provided_approvals := apps.provided_approvals ++ [level]
                requested_approvals := apps.requested_approvals.eraseIdx itr }
            { status := none
              db := { s with old_apptable := s.old_apptable.put proposer proposal_name (some a) }
              queried := []
              deferred := [] }

/-- The action `multisig::unapprove`. -/
def unapprove (env : Env) (s : Database) (proposer proposal_name : Nat)
    (level : permission_level) : Run :=
  if !has_auth2 env level then Run.abort .missing_authority s []
  else
    match s.apptable.find proposer proposal_name with
    | some apps =>
      let itr := find_if (fun a => decide (a.level = level)) apps.provided_approvals
      if itr = apps.provided_approvals.length then Run.abort .not_granted s []
      else
        let a : approvals_info :=
          { apps with
            requested_approvals :=
              apps.requested_approvals ++ [{ level := level, time := current_time_point env }]
            provided_approvals := apps.provided_approvals.eraseIdx itr }
        { status := none
          db := { s with apptable := s.apptable.put proposer proposal_name (some a) }
          queried := []
          deferred := [] }
    | none =>
      match s.old_apptable.find proposer proposal_name with
      | none => Run.abort .proposal_not_found s []
      | some apps =>
        let itr := find_if (fun l => decide (l = level)) apps.provided_approvals
        if itr = apps.provided_approvals.length then Run.abort .not_granted s []
        else
          let a : old_approvals_info :=
            { apps with
              requested_approvals := apps.requested_approvals ++ [level]
              provided_approvals := apps.provided_approvals.eraseIdx itr }
          { status := none
            db := { s with old_apptable := s.old_apptable.put proposer proposal_name (some a) }
            queried := []
            deferred := [] }

/-- The action `multisig::cancel`. -/
def cancel (env : Env) (s : Database) (proposer proposal_name canceler : Nat) : Run :=
  if !has_auth env canceler then Run.abort .missing_authority s []
  else
    match s.proptable.find proposer proposal_name with
    | none => Run.abort .proposal_not_found s []
    | some prop =>
      let expiry_failure : Option Error :=
        if canceler ≠ proposer then
          match env.unpack_header prop.packed_transaction with
          | none => some .read
          | some trx_header =>
            if trx_header.expiration < time_point_sec (current_time_point env) then none
            else some .cannot_cancel
        else none
      match expiry_failure with
      | some e => Run.abort e s []
      | none =>
        let s1 : Database := { s with proptable := s.proptable.put proposer proposal_name none }
        match s1.apptable.find proposer proposal_name with
        | some _ =>
          { status := none
            db := { s1 with apptable := s1.apptable.put proposer proposal_name none }
            queried := []
            deferred := [] }
        | none =>
          match s1.old_apptable.find proposer proposal_name with
          | none => Run.abort .proposal_not_found s1 []
          | some _ =>
            { status := none
              db := { s1 with old_apptable := s1.old_apptable.put proposer proposal_name none }
              queried := []
              deferred := [] }

/-- The sender id of the deferred transaction:
`(uint128_t(proposer.value) << 64) | proposal_name.value`. -/
def sender_id (proposer proposal_name : Nat) : Nat :=
  ((proposer % 2 ^ 64) <<< 64) % 2 ^ 128 ||| (proposal_name % 2 ^ 64)

/-- The action `multisig::exec`. -/
def exec (env : Env) (s : Database) (proposer proposal_name executer : Nat) : Run :=
  if !has_auth env executer then Run.abort .missing_authority s []
  else
    match s.proptable.find proposer proposal_name with
    | none => Run.abort .proposal_not_found s []
    | some prop =>
      match env.unpack_header prop.packed_transaction with
      | none => Run.abort .read s []
      | some trx_header =>
        if !decide (trx_header.expiration ≥ time_point_sec (current_time_point env)) then
          Run.abort .transaction_expired s []
        else
          let collected : Option (List permission_level × Database) :=
            match s.apptable.find proposer proposal_name with
            | some apps =>
              some (collect_approvals s.inv_table apps.provided_approvals [],
                    { s with apptable := s.apptable.put proposer proposal_name none })
            | none =>
              match s.old_apptable.find proposer proposal_name with
              | none => none
              | some apps =>
                some (collect_old_approvals s.inv_table apps.provided_approvals [],
                      { s with old_apptable := s.old_apptable.put proposer proposal_name none })
          match collected with
          | none => Run.abort .proposal_not_found s []
          | some (approvals, s1) =>
            let res := env.check_transaction_authorization prop.packed_transaction approvals
            if !decide (res > 0) then
              Run.abort .authorization_failed s1 [(prop.packed_transaction, approvals)]
            else
              { status := none
                db := { s1 with proptable := s1.proptable.put proposer proposal_name none }
                queried := [(prop.packed_transaction, approvals)]
                deferred :=
                  [{ sender_id := sender_id proposer proposal_name
                     payer := executer
                     serialized_transaction := prop.packed_transaction }] }

/-- The action `multisig::invalidate`. -/
def invalidate (env : Env) (s : Database) (account : Nat) : Run :=
  if !has_auth env account then Run.abort .missing_authority s []
  else
    match s.inv_table account with
    | none =>
      let i : invalidation :=
        { account := account, last_invalidation_time := current_time_point env }
      { status := none
        db := { s with inv_table := fun k => if k = account then some i else s.inv_table k }
        queried := []
        deferred := [] }
    | some it =>
      let i : invalidation := { it with last_invalidation_time := current_time_point env }
      { status := none
        db := { s with inv_table := fun k => if k = account then some i else s.inv_table k }
        queried := []
        deferred := [] }

/-! ## Dispatch and the host's transaction semantics -/

/-- An action of the contract with its arguments, as `EOSIO_DISPATCH` receives
it. -/
inductive Call where
  | propose (proposer proposal_name : Nat) (requested : List permission_level) (trx : Bytes)
  | approve (proposer proposal_name : Nat) (level : permission_level) (proposal_hash : Option Nat)
  | unapprove (proposer proposal_name : Nat) (level : permission_level)
  | cancel (proposer proposal_name canceler : Nat)
  | exec (proposer proposal_name executer : Nat)
  | invalidate (account : Nat)
deriving DecidableEq, Repr

/-- The dispatcher: run the body of the action that was called. -/
def run (env : Env) (s : Database) : Call → Run
  | .propose proposer proposal_name requested trx =>
    propose env s proposer proposal_name requested trx
  | .approve proposer proposal_name level proposal_hash =>
    approve env s proposer proposal_name level proposal_hash
  | .unapprove proposer proposal_name level => unapprove env s proposer proposal_name level
  | .cancel proposer proposal_name canceler => cancel env s proposer proposal_name canceler
  | .exec proposer proposal_name executer => exec env s proposer proposal_name executer
  | .invalidate account => invalidate env s account

/-- Modelled from the spec: the host that runs an action is not part of the
sources. Each invocation commits or aborts in full: the store after the call is
the working store of a run that reached its end, and the store before the call
when the run aborted. -/
def apply_action (env : Env) (s : Database) (call : Call) : Database :=
  match (run env s call).status with
  | none => (run env s call).db
  | some _ => s

/-- The deferred transactions that stay scheduled after the call: those of a run
that reached its end. -/
def sent (env : Env) (s : Database) (call : Call) : List deferred_transaction :=
  match (run env s call).status with
  | none => (run env s call).deferred
  | some _ => []

/-! ## Histories -/

/-- The store after a sequence of invocations, each with the environment the
host gave it. -/
def run_all (s : Database) : List (Env × Call) → Database
  | [] => s
  | c :: rest => run_all (apply_action c.1 s c.2) rest

/-- The store a history of invocations reaches from the empty stores. -/
def reached (calls : List (Env × Call)) : Database := run_all Database.empty calls

/-- The clock never decreases: starting from time `t`, every invocation of the
sequence runs at a block time at or after that of the one before it. -/
def nondecreasing (t : Int) : List (Env × Call) → Bool
  | [] => true
  | c :: rest => decide (t ≤ current_time_point c.1) && nondecreasing (current_time_point c.1) rest

/-- For each proposal identity, the `requested` list of the `propose` that
created the proposal now stored (a history variable, not contract state). -/
def Origin : Type := Nat → Nat → Option (List permission_level)

/-- How one invocation moves the history variable: a `propose` that ran to its
end records its `requested`; a `cancel` or `exec` that ran to its end forgets
the identity; nothing else touches it. -/
def track (env : Env) (s : Database) (call : Call) (o : Origin) : Origin :=
  match (run env s call).status with
  | some _ => o
  | none =>
    match call with
    | .propose proposer proposal_name requested _ =>
      fun p k => if p = proposer ∧ k = proposal_name then some requested else o p k
    | .cancel proposer proposal_name _ =>
      fun p k => if p = proposer ∧ k = proposal_name then none else o p k
    | .exec proposer proposal_name _ =>
      fun p k => if p = proposer ∧ k = proposal_name then none else o p k
    | _ => o

/-- The history variable after a sequence of invocations. -/
def track_all (s : Database) (o : Origin) : List (Env × Call) → Origin
  | [] => o
  | c :: rest => track_all (apply_action c.1 s c.2) (track c.1 s c.2 o) rest

/-- The creation lists after a history that starts on the empty stores. -/
def created (calls : List (Env × Call)) : Origin :=
  track_all Database.empty (fun _ _ => none) calls

/-! ## The words of the specification -/

/-- A provided approval is live when the registry has no record for its account
or the record's `last_invalidation_time` is before the approval's timestamp. -/
def spec_live (inv_table : Nat → Option invalidation) (p : approval) : Bool :=
  match inv_table p.level.actor with
  | none => true
  | some it => decide (it.last_invalidation_time < p.time)

/-- The levels of the live provided approvals, in stored order. -/
def spec_live_levels (inv_table : Nat → Option invalidation) (provided : List approval) :
    List permission_level :=
  (provided.filter (spec_live inv_table)).map (fun p => p.level)

/-- The levels of a list of approval entries. -/
def levels (xs : List approval) : List permission_level := xs.map (fun a => a.level)

/-- The optional hash of `approve` passes: none was given, or the proposal is
stored and the digest of its bytes is the given one. -/
def hash_ok (env : Env) (s : Database) (proposer proposal_name : Nat) : Option Nat → Bool
  | none => true
  | some h =>
    match s.proptable.find proposer proposal_name with
    | none => false
    | some prop => decide (env.sha256 prop.packed_transaction = h)

/-- The levels `approve` looks through: those of `requested_approvals` of the
timestamped record, of the legacy record when there is no timestamped one. -/
def requested_levels (s : Database) (proposer proposal_name : Nat) : List permission_level :=
  match s.apptable.find proposer proposal_name with
  | some apps => levels apps.requested_approvals
  | none =>
    match s.old_apptable.find proposer proposal_name with
    | some apps => apps.requested_approvals
    | none => []

/-- The registry holds a record for `A` whose time is at least `T`. -/
def watermark (s : Database) (A : Nat) (T : Int) : Prop :=
  ∃ it, s.inv_table A = some it ∧ T ≤ it.last_invalidation_time

/-- Conservation of the approval entries: every timestamped approval record
belongs to a proposal whose creation list is known, and the levels of its two
collections together are a rearrangement of that list. -/
def conserved (s : Database) (o : Origin) : Prop :=
  ∀ P n a, s.apptable.find P n = some a →
    ∃ R, o P n = some R ∧
      (levels a.requested_approvals ++ levels a.provided_approvals).Perm R

/-- The proposal identity an action works on; `invalidate` has none. -/
def target : Call → Option (Nat × Nat)
  | .propose proposer proposal_name _ _ => some (proposer, proposal_name)
  | .approve proposer proposal_name _ _ => some (proposer, proposal_name)
  | .unapprove proposer proposal_name _ => some (proposer, proposal_name)
  | .cancel proposer proposal_name _ => some (proposer, proposal_name)
  | .exec proposer proposal_name _ => some (proposer, proposal_name)
  | .invalidate _ => none

/-- Store consistency: an identity has a proposal record exactly when it has a
timestamped approval record, and the legacy approval table has no rows. -/
def consistent (s : Database) : Prop :=
  (∀ P n, (s.proptable.find P n).isSome = (s.apptable.find P n).isSome) ∧
  (∀ P n, s.old_apptable.find P n = none)

/-- The invocations that leave a proposal `(P, n)` in being: `approve`,
`unapprove` and `invalidate`, and every action on another identity. -/
def keeps_proposal (P n : Nat) : Call → Bool
  | .approve _ _ _ _ => true
  | .unapprove _ _ _ => true
  | .invalidate _ => true
  | .propose proposer proposal_name _ _ => !decide (proposer = P ∧ proposal_name = n)
  | .cancel proposer proposal_name _ => !decide (proposer = P ∧ proposal_name = n)
  | .exec proposer proposal_name _ => !decide (proposer = P ∧ proposal_name = n)

/-- The gate of `exec` (and of `propose`): the expiration is at or after the
current time in whole seconds. -/
def exec_gate (env : Env) (hdr : transaction_header) : Bool :=
  decide (hdr.expiration ≥ time_point_sec (current_time_point env))

/-- The gate of `cancel` for a canceler other than the proposer: the expiration
is before the current time in whole seconds. -/
def cancel_gate (env : Env) (hdr : transaction_header) : Bool :=
  decide (hdr.expiration < time_point_sec (current_time_point env))

/-! ## Sample data -/

/-- A header decoder for the samples: the first four bytes, little-endian, are
the expiration. -/
def sample_unpack : Bytes → Option transaction_header
  | b0 :: b1 :: b2 :: b3 :: _ =>
    some { expiration := b0.val + 256 * b1.val + 65536 * b2.val + 16777216 * b3.val }
  | _ => none

/-- A sample environment: the time in microseconds, the authorizations of the
action, and the verdict the authorization check gives on a list of levels. -/
def sample_env (now : Nat) (auth : List permission_level)
    (verdict : List permission_level → Int) : Env :=
  { current_time := now
    authorization := auth
    check_transaction_authorization := fun _ perms => verdict perms
    sha256 := fun b => b.length
    unpack_header := sample_unpack }

/-- Sample level `alice@active`. -/
def L1 : permission_level := { actor := 10, permission := 1 }

/-- Sample level `bob@active`. -/
def L2 : permission_level := { actor := 11, permission := 1 }

/-- A sample transaction: expiration 100 s, then one byte of body. -/
def tx0 : Bytes := [100, 0, 0, 0, 7]

/-- The verdict that accepts any list. -/
def accept_all : List permission_level → Int := fun _ => 1

/-- The verdict that accepts a list only when it holds `L1`. -/
def needs_L1 : List permission_level → Int := fun perms => if L1 ∈ perms then 1 else 0

/-- Sample level `carol@active`, who executes and cancels. -/
def L3 : permission_level := { actor := 12, permission := 1 }

/-- The verdict that accepts no list. -/
def reject_all : List permission_level → Int := fun _ => 0

/-- A store that holds a proposal record without any approval record. -/
def orphan_store : Database :=
  { Database.empty with
    proptable := Table.put Table.empty 10 2 (some { proposal_name := 2, packed_transaction := tx0 }) }

/-- Alice (account 10) proposes `p` (name 2) at 5 s with the requested list
`[L1, L2]`; `L1` approves at 6 s and `L2` at 7 s. -/
def approved_history : List (Env × Call) :=
  [(sample_env 5000000 [L1] accept_all, .propose 10 2 [L1, L2] tx0),
   (sample_env 6000000 [L1] accept_all, .approve 10 2 L1 none),
   (sample_env 7000000 [L2] accept_all, .approve 10 2 L2 none)]

/-- The history `approved_history`, then `L2`'s account (11) invalidates at
7 s, the very time of its approval. -/
def invalidated_history : List (Env × Call) :=
  approved_history ++ [(sample_env 7000000 [L2] accept_all, .invalidate 11)]

/-- Alice proposes with `[L1]`, `L1` approves, and Alice's account invalidates. -/
def voided_history : List (Env × Call) :=
  [(sample_env 5000000 [L1] accept_all, .propose 10 3 [L1] tx0),
   (sample_env 6000000 [L1] accept_all, .approve 10 3 L1 none),
   (sample_env 7000000 [L1] accept_all, .invalidate 10)]

/-- A sample transaction whose expiration (3 s) is long past at the sample
times. -/
def tx_old : Bytes := [3, 0, 0, 0, 7]

/-- A store with a legacy proposal of Alice: a proposal record and an approval
record in the legacy table only. -/
def legacy_store : Database :=
  { orphan_store with
    old_apptable := Table.put Table.empty 10 2
      (some { proposal_name := 2, requested_approvals := [L1], provided_approvals := [] }) }

/-- Alice proposes with `L1` listed twice, then `L1` approves once. -/
def repeated_history : List (Env × Call) :=
  [(sample_env 5000000 [L1] accept_all, .propose 10 2 [L1, L1] tx0),
   (sample_env 6000000 [L1] accept_all, .approve 10 2 L1 none)]

end multisig

end eosio

/-! # Verification -/

namespace eosio

namespace multisig

/-! ## Keyed stores -/

theorem Table.find_put_same {α : Type} (t : Table α) (scope key : Nat) (row : Option α) :
    (t.put scope key row).find scope key = row := by
  simp [Table.find, Table.put]

theorem Table.find_put_other {α : Type} (t : Table α) (scope key sc k : Nat) (row : Option α)
    (h : ¬ (sc = scope ∧ k = key)) : (t.put scope key row).find sc k = t.find sc k := by
  simp [Table.find, Table.put, h]

/-! ## `std::find_if` and `vector::erase` -/

theorem find_if_le {α : Type} (p : α → Bool) (xs : List α) : find_if p xs ≤ xs.length := by
  induction xs with
  | nil => simp [find_if]
  | cons x xs ih =>
    unfold find_if
    split
    · exact Nat.zero_le _
    · simpa using ih

theorem find_if_eq_length {α : Type} (p : α → Bool) (xs : List α) :
    find_if p xs = xs.length ↔ ∀ x ∈ xs, p x = false := by
  induction xs with
  | nil => simp [find_if]
  | cons x xs ih =>
    unfold find_if
    by_cases hx : p x = true
    · simp [hx]
    · simp [hx, ih]

theorem find_if_split {α : Type} (p : α → Bool) (xs : List α)
    (h : find_if p xs < xs.length) :
    ∃ before e after, xs = before ++ e :: after ∧ p e = true ∧
      (∀ x ∈ before, p x = false) ∧ xs.eraseIdx (find_if p xs) = before ++ after := by
  induction xs with
  | nil => simp [find_if] at h
  | cons x xs ih =>
    by_cases hx : p x = true
    · exact ⟨[], x, xs, rfl, hx, by simp, by simp [find_if, hx]⟩
    · have hlt : find_if p xs < xs.length := by
        simp [find_if, hx] at h
        exact h
      obtain ⟨before, e, after, hxs, he, hb, her⟩ := ih hlt
      refine ⟨x :: before, e, after, by simp [hxs], he, ?_, ?_⟩
      · intro y hy
        rcases List.mem_cons.mp hy with rfl | hy
        · simpa using hx
        · exact hb y hy
      · simp [find_if, hx, her]

theorem eraseIdx_find_if {α : Type} (p : α → Bool) (xs : List α) :
    xs.eraseIdx (find_if p xs) = xs.eraseP p := by
  induction xs with
  | nil => simp [find_if]
  | cons x xs ih =>
    by_cases hx : p x = true
    · simp [find_if, hx]
    · simp [find_if, hx, ih]

/-! ## What an action that ran to its end did -/

theorem propose_ok (env : Env) (s : Database) (P n : Nat) (R : List permission_level)
    (trx : Bytes) :
    (propose env s P n R trx).status = none →
    s.proptable.find P n = none ∧ s.apptable.find P n = none ∧
    (propose env s P n R trx).db =
      { s with
        proptable := s.proptable.put P n (some { proposal_name := n, packed_transaction := trx })
        apptable := s.apptable.put P n (some
          { proposal_name := n
            requested_approvals := R.map (fun level => { level := level, time := 0 })
            provided_approvals := [] }) } := by
  simp only [propose, Run.abort]
  repeat' split
  all_goals first | (intro h; simp at h; done) | skip
  rename_i h1 _ h2
  intro _
  simp at h1 h2
  exact ⟨h1, h2, rfl⟩

theorem approve_ok (env : Env) (s : Database) (P n : Nat) (L : permission_level)
    (hash : Option Nat) :
    (approve env s P n L hash).status = none →
    (∃ apps, s.apptable.find P n = some apps ∧
      find_if (fun a => decide (a.level = L)) apps.requested_approvals
        < apps.requested_approvals.length ∧
      (approve env s P n L hash).db = { s with apptable := s.apptable.put P n (some
        { apps with
          provided_approvals :=
            apps.provided_approvals ++ [{ level := L, time := current_time_point env }]
          requested_approvals := apps.requested_approvals.eraseIdx
            (find_if (fun a => decide (a.level = L)) apps.requested_approvals) }) }) ∨
    (s.apptable.find P n = none ∧ ∃ apps, s.old_apptable.find P n = some apps ∧
      find_if (fun l => decide (l = L)) apps.requested_approvals
        < apps.requested_approvals.length ∧
      (approve env s P n L hash).db = { s with old_apptable := s.old_apptable.put P n (some
        { apps with
          provided_approvals := apps.provided_approvals ++ [L]
          requested_approvals := apps.requested_approvals.eraseIdx
            (find_if (fun l => decide (l = L)) apps.requested_approvals) }) }) := by
  simp only [approve, Run.abort]
  repeat' split
  all_goals first | (intro h; simp at h; done) | skip
  · rename_i apps ha hne
    intro _
    exact Or.inl ⟨apps, ha, lt_of_le_of_ne (find_if_le _ _) hne, rfl⟩
  · rename_i ha _ apps ho hne
    intro _
    exact Or.inr ⟨ha, apps, ho, lt_of_le_of_ne (find_if_le _ _) hne, rfl⟩

theorem unapprove_ok (env : Env) (s : Database) (P n : Nat) (L : permission_level) :
    (unapprove env s P n L).status = none →
    (∃ apps, s.apptable.find P n = some apps ∧
      find_if (fun a => decide (a.level = L)) apps.provided_approvals
        < apps.provided_approvals.length ∧
      (unapprove env s P n L).db = { s with apptable := s.apptable.put P n (some
        { apps with
          requested_approvals :=
            apps.requested_approvals ++ [{ level := L, time := current_time_point env }]
          provided_approvals := apps.provided_approvals.eraseIdx
            (find_if (fun a => decide (a.level = L)) apps.provided_approvals) }) }) ∨
    (s.apptable.find P n = none ∧ ∃ apps, s.old_apptable.find P n = some apps ∧
      find_if (fun l => decide (l = L)) apps.provided_approvals
        < apps.provided_approvals.length ∧
      (unapprove env s P n L).db = { s with old_apptable := s.old_apptable.put P n (some
        { apps with
          requested_approvals := apps.requested_approvals ++ [L]
          provided_approvals := apps.provided_approvals.eraseIdx
            (find_if (fun l => decide (l = L)) apps.provided_approvals) }) }) := by
  simp only [unapprove, Run.abort]
  repeat' split
  all_goals first | (intro h; simp at h; done) | skip
  · rename_i apps ha hne
    intro _
    exact Or.inl ⟨apps, ha, lt_of_le_of_ne (find_if_le _ _) hne, rfl⟩
  · rename_i ha _ apps ho hne
    intro _
    exact Or.inr ⟨ha, apps, ho, lt_of_le_of_ne (find_if_le _ _) hne, rfl⟩

theorem cancel_ok (env : Env) (s : Database) (P n C : Nat) :
    (cancel env s P n C).status = none →
    (∃ prop, s.proptable.find P n = some prop) ∧
    ((∃ apps, s.apptable.find P n = some apps ∧
      (cancel env s P n C).db =
        { s with proptable := s.proptable.put P n none, apptable := s.apptable.put P n none }) ∨
    (s.apptable.find P n = none ∧ ∃ apps, s.old_apptable.find P n = some apps ∧
      (cancel env s P n C).db =
        { s with proptable := s.proptable.put P n none,
                 old_apptable := s.old_apptable.put P n none })) := by
  simp only [cancel, Run.abort]
  repeat' split
  all_goals first | (intro h; simp at h; done) | skip
  · rename_i prop hp _ _ _ apps ha
    intro _
    exact ⟨⟨prop, hp⟩, Or.inl ⟨apps, ha, rfl⟩⟩
  · rename_i prop hp _ _ _ ha _ apps ho
    intro _
    exact ⟨⟨prop, hp⟩, Or.inr ⟨ha, apps, ho, rfl⟩⟩

theorem exec_ok (env : Env) (s : Database) (P n E : Nat) :
    (exec env s P n E).status = none →
    (∃ prop, s.proptable.find P n = some prop) ∧
    ((∃ apps, s.apptable.find P n = some apps ∧
      (exec env s P n E).db =
        { s with apptable := s.apptable.put P n none, proptable := s.proptable.put P n none }) ∨
    (s.apptable.find P n = none ∧ ∃ apps, s.old_apptable.find P n = some apps ∧
      (exec env s P n E).db =
        { s with old_apptable := s.old_apptable.put P n none,
                 proptable := s.proptable.put P n none })) := by
  cases ha : s.apptable.find P n <;> cases ho : s.old_apptable.find P n <;>
    simp only [exec, Run.abort, ha, ho] <;> (repeat' split) <;>
    first
    | (intro h; simp at h; done)
    | (rename_i prop hp _ _ _ _ _; intro _; simp [hp])

theorem invalidate_ok (env : Env) (s : Database) (A : Nat) :
    (invalidate env s A).status = none →
    (∃ it, (invalidate env s A).db.inv_table A = some it ∧
      it.last_invalidation_time = current_time_point env) ∧
    (∀ k, k ≠ A → (invalidate env s A).db.inv_table k = s.inv_table k) ∧
    (invalidate env s A).db.proptable = s.proptable ∧
    (invalidate env s A).db.apptable = s.apptable ∧
    (invalidate env s A).db.old_apptable = s.old_apptable := by
  simp only [invalidate, Run.abort]
  repeat' split
  all_goals first | (intro h; simp at h; done) | skip
  all_goals
    intro _
    refine ⟨⟨_, if_pos rfl, rfl⟩, ?_, rfl, rfl, rfl⟩
    intro k hk
    simp [hk]

/-! ## The loop of `exec` and the sender id -/

theorem collect_approvals_eq (inv_table : Nat → Option invalidation) (provided : List approval)
    (acc : List permission_level) :
    collect_approvals inv_table provided acc = acc ++ spec_live_levels inv_table provided := by
  induction provided generalizing acc with
  | nil => simp [collect_approvals, spec_live_levels]
  | cons p rest ih =>
    unfold collect_approvals
    cases hrow : inv_table p.level.actor with
    | none =>
      simp only [ih]
      simp [spec_live_levels, spec_live, hrow, List.filter_cons]
    | some it =>
      by_cases hlt : it.last_invalidation_time < p.time
      · simp only [hlt, if_true, ih]
        simp [spec_live_levels, spec_live, hrow, List.filter_cons, hlt]
      · simp only [hlt, if_false, ih]
        simp [spec_live_levels, spec_live, hrow, List.filter_cons, hlt]

theorem sender_id_eq (proposer proposal_name : Nat) (hp : proposer < 2 ^ 64)
    (hn : proposal_name < 2 ^ 64) :
    sender_id proposer proposal_name = proposer * 2 ^ 64 + proposal_name := by
  unfold sender_id
  rw [Nat.mod_eq_of_lt hp, Nat.mod_eq_of_lt hn, Nat.shiftLeft_eq]
  have hlt : proposer * 2 ^ 64 < 2 ^ 128 := by
    have : (2:Nat) ^ 128 = 2 ^ 64 * 2 ^ 64 := by norm_num
    rw [this]
    exact Nat.mul_lt_mul_of_pos_right hp (by norm_num)
  rw [Nat.mod_eq_of_lt hlt, Nat.mul_comm proposer, ← Nat.mul_add_lt_is_or hn]

/-! ## What `exec` submits -/

theorem exec_queried (env : Env) (s : Database) (P n E : Nat) (apps : approvals_info)
    (ha : s.apptable.find P n = some apps) :
    ∀ q ∈ (exec env s P n E).queried,
      q.2 = spec_live_levels s.inv_table apps.provided_approvals := by
  simp only [exec, Run.abort, ha, collect_approvals_eq]
  repeat' split
  all_goals simp

theorem exec_reaches_check (env : Env) (s : Database) (P n E : Nat) (prop : proposal)
    (apps : approvals_info) (hdr : transaction_header)
    (hE : has_auth env E = true)
    (hp : s.proptable.find P n = some prop)
    (ha : s.apptable.find P n = some apps)
    (hh : env.unpack_header prop.packed_transaction = some hdr)
    (hx : hdr.expiration ≥ time_point_sec (current_time_point env)) :
    (exec env s P n E).queried =
      [(prop.packed_transaction, spec_live_levels s.inv_table apps.provided_approvals)] ∧
    ((exec env s P n E).status = none ∨
      (exec env s P n E).status = some .authorization_failed) ∧
    ((exec env s P n E).status = none ↔
      0 < env.check_transaction_authorization prop.packed_transaction
        (spec_live_levels s.inv_table apps.provided_approvals)) := by
  simp only [exec, Run.abort, hp, ha, hh, hE, collect_approvals_eq]
  simp only [hx, decide_True, Bool.not_true, Bool.false_eq_true, if_false, List.nil_append]
  by_cases hv : 0 < env.check_transaction_authorization prop.packed_transaction
      (spec_live_levels s.inv_table apps.provided_approvals)
  · simp [hv]
  · simp [hv]

/-! ## The registry -/

theorem run_inv_table (env : Env) (s : Database) (call : Call)
    (h : ∀ A, call ≠ .invalidate A) : (run env s call).db.inv_table = s.inv_table := by
  cases call with
  | invalidate A => exact absurd rfl (h A)
  | exec P n E =>
    cases ha : s.apptable.find P n <;> cases ho : s.old_apptable.find P n <;>
      simp only [run, exec, Run.abort, ha, ho] <;> (repeat' split) <;> rfl
  | propose P n R trx => simp only [run, propose, Run.abort]; (repeat' split) <;> rfl
  | approve P n L hash => simp only [run, approve, Run.abort]; (repeat' split) <;> rfl
  | unapprove P n L => simp only [run, unapprove, Run.abort]; (repeat' split) <;> rfl
  | cancel P n C => simp only [run, cancel, Run.abort]; (repeat' split) <;> rfl

theorem apply_action_inv_table (env : Env) (s : Database) (call : Call)
    (h : ∀ A, call ≠ .invalidate A) : (apply_action env s call).inv_table = s.inv_table := by
  unfold apply_action
  split
  · exact run_inv_table env s call h
  · rfl

theorem apply_action_ok (env : Env) (s : Database) (call : Call)
    (h : (run env s call).status = none) : apply_action env s call = (run env s call).db := by
  simp only [apply_action, h]

theorem apply_action_watermark (env : Env) (s : Database) (call : Call) (A : Nat) (T : Int)
    (hT : T ≤ current_time_point env) (hw : watermark s A T) :
    watermark (apply_action env s call) A T := by
  by_cases hc : ∀ B, call ≠ .invalidate B
  · unfold watermark
    rw [apply_action_inv_table env s call hc]
    exact hw
  · push_neg at hc
    obtain ⟨B, rfl⟩ := hc
    unfold apply_action
    cases hst : (run env s (.invalidate B)).status with
    | some e => exact hw
    | none =>
      obtain ⟨⟨it, hit, htime⟩, hother, -⟩ := invalidate_ok env s B hst
      by_cases hB : A = B
      · subst hB
        exact ⟨it, hit, by rw [htime]; exact hT⟩
      · obtain ⟨it0, h0, hle⟩ := hw
        exact ⟨it0, by rw [← h0]; exact hother A hB, hle⟩

theorem run_all_watermark (calls : List (Env × Call)) (s : Database) (A : Nat) (T t : Int)
    (hclock : nondecreasing t calls = true)
    (hT : T ≤ t) (hw : watermark s A T) : watermark (run_all s calls) A T := by
  induction calls generalizing s t with
  | nil => exact hw
  | cons c rest ih =>
    simp only [nondecreasing, Bool.and_eq_true, decide_eq_true_eq] at hclock
    exact ih (apply_action c.1 s c.2) (current_time_point c.1) hclock.2 (le_trans hT hclock.1)
      (apply_action_watermark c.1 s c.2 A T (le_trans hT hclock.1) hw)

theorem watermark_not_live (s : Database) (A : Nat) (T : Int) (hw : watermark s A T)
    (p : approval) (hA : p.level.actor = A) (hp : p.time ≤ T) :
    spec_live s.inv_table p = false := by
  obtain ⟨it, hit, hle⟩ := hw
  unfold spec_live
  rw [hA, hit]
  simp
  exact le_trans hp hle

/-! ## Conservation of the approval entries -/

theorem levels_eraseIdx_perm (L : permission_level) (xs : List approval)
    (h : find_if (fun a => decide (a.level = L)) xs < xs.length) :
    (L :: levels (xs.eraseIdx (find_if (fun a => decide (a.level = L)) xs))).Perm (levels xs) := by
  obtain ⟨before, e, after, hxs, he, -, her⟩ := find_if_split _ xs h
  have heL : e.level = L := by simpa using he
  rw [her]
  conv_rhs => rw [hxs]
  simp only [levels, List.map_append, List.map_cons, heL]
  exact List.perm_middle.symm

theorem conserved_put (s : Database) (o : Origin) (P n : Nat) (a a' : approvals_info)
    (hc : conserved s o) (ha : s.apptable.find P n = some a)
    (hperm : (levels a'.requested_approvals ++ levels a'.provided_approvals).Perm
      (levels a.requested_approvals ++ levels a.provided_approvals)) :
    conserved { s with apptable := s.apptable.put P n (some a') } o := by
  intro p k b hb
  by_cases hk : p = P ∧ k = n
  · obtain ⟨rfl, rfl⟩ := hk
    rw [Table.find_put_same] at hb
    cases hb
    obtain ⟨R, hR, hp⟩ := hc p k a ha
    exact ⟨R, hR, hperm.trans hp⟩
  · rw [Table.find_put_other _ _ _ _ _ _ hk] at hb
    exact hc p k b hb

theorem conserved_erase (s : Database) (o : Origin) (P n : Nat) (t : Table approvals_info)
    (hc : conserved s o)
    (ht : ∀ p k, ¬ (p = P ∧ k = n) → t.find p k = s.apptable.find p k)
    (hn : t.find P n = none) (s' : Database) (hs' : s'.apptable = t) :
    conserved s' (fun p k => if p = P ∧ k = n then none else o p k) := by
  intro p k b hb
  rw [hs'] at hb
  by_cases hk : p = P ∧ k = n
  · obtain ⟨rfl, rfl⟩ := hk
    rw [hn] at hb
    cases hb
  · rw [ht p k hk] at hb
    simp only [hk, if_false]
    exact hc p k b hb

theorem conserved_step (env : Env) (s : Database) (o : Origin) (call : Call)
    (hc : conserved s o) : conserved (apply_action env s call) (track env s call o) := by
  cases hst : (run env s call).status with
  | some e =>
    simp only [apply_action, track, hst]
    exact hc
  | none =>
    rw [apply_action_ok env s call hst]
    cases call with
    | propose P n R trx =>
      simp only [track, hst]
      obtain ⟨-, hnone, hdb⟩ := propose_ok env s P n R trx hst
      simp only [run, hdb]
      intro p k b hb
      by_cases hk : p = P ∧ k = n
      · obtain ⟨rfl, rfl⟩ := hk
        simp only [Table.find_put_same] at hb
        cases hb
        refine ⟨R, by simp, ?_⟩
        simp [levels, List.map_map, Function.comp_def]
      · simp only [Table.find_put_other _ _ _ _ _ _ hk] at hb
        simp only [hk, if_false]
        exact hc p k b hb
    | approve P n L hash =>
      simp only [track, hst]
      rcases approve_ok env s P n L hash hst with ⟨apps, ha, hlt, hdb⟩ | ⟨-, apps, -, -, hdb⟩
      · simp only [run, hdb]
        refine conserved_put s o P n apps _ hc ha ?_
        have h := levels_eraseIdx_perm L apps.requested_approvals hlt
        simp only [levels, List.map_append, List.map_cons, List.map_nil] at h ⊢
        refine List.Perm.trans ?_ (List.Perm.append_right _ h)
        simp only [List.cons_append]
        refine List.Perm.trans ?_ List.perm_middle
        exact List.Perm.append_left _ (List.perm_append_comm)
      · simp only [run, hdb]
        exact hc
    | unapprove P n L =>
      simp only [track, hst]
      rcases unapprove_ok env s P n L hst with ⟨apps, ha, hlt, hdb⟩ | ⟨-, apps, -, -, hdb⟩
      · simp only [run, hdb]
        refine conserved_put s o P n apps _ hc ha ?_
        have h := levels_eraseIdx_perm L apps.provided_approvals hlt
        simp only [levels, List.map_append, List.map_cons, List.map_nil] at h ⊢
        refine List.Perm.trans ?_ (List.Perm.append_left _ h)
        simp only [List.append_assoc, List.singleton_append]
        exact List.Perm.refl _
      · simp only [run, hdb]
        exact hc
    | cancel P n C =>
      simp only [track, hst]
      rcases (cancel_ok env s P n C hst).2 with ⟨apps, -, hdb⟩ | ⟨hnone, apps, -, hdb⟩
      · simp only [run, hdb]
        exact conserved_erase s o P n (s.apptable.put P n none) hc
          (fun p k hk => Table.find_put_other _ _ _ _ _ _ hk) (Table.find_put_same _ _ _ _) _ rfl
      · simp only [run, hdb]
        exact conserved_erase s o P n s.apptable hc (fun _ _ _ => rfl) hnone _ rfl
    | exec P n E =>
      simp only [track, hst]
      rcases (exec_ok env s P n E hst).2 with ⟨apps, -, hdb⟩ | ⟨hnone, apps, -, hdb⟩
      · simp only [run, hdb]
        exact conserved_erase s o P n (s.apptable.put P n none) hc
          (fun p k hk => Table.find_put_other _ _ _ _ _ _ hk) (Table.find_put_same _ _ _ _) _ rfl
      · simp only [run, hdb]
        exact conserved_erase s o P n s.apptable hc (fun _ _ _ => rfl) hnone _ rfl
    | invalidate A =>
      simp only [track, hst]
      obtain ⟨-, -, -, hat, -⟩ := invalidate_ok env s A hst
      intro p k b hb
      simp only [run, hat] at hb
      exact hc p k b hb

theorem conserved_run_all (calls : List (Env × Call)) (s : Database) (o : Origin)
    (hc : conserved s o) : conserved (run_all s calls) (track_all s o calls) := by
  induction calls generalizing s o with
  | nil => exact hc
  | cons c rest ih => exact ih _ _ (conserved_step c.1 s o c.2 hc)

theorem conserved_reached (calls : List (Env × Call)) :
    conserved (reached calls) (created calls) := by
  refine conserved_run_all calls _ _ ?_
  intro P n a ha
  simp [Database.empty, Table.find, Table.empty] at ha

/-! ## Approve and unapprove -/

theorem hash_ok_cases (env : Env) (s : Database) (P n : Nat) (hash : Option Nat)
    (h : hash_ok env s P n hash = true) :
    hash = none ∨ ∃ v prop, hash = some v ∧ s.proptable.find P n = some prop ∧
      env.sha256 prop.packed_transaction = v := by
  cases hash with
  | none => exact Or.inl rfl
  | some v =>
    simp only [hash_ok] at h
    cases hp : s.proptable.find P n with
    | none => simp [hp] at h
    | some prop =>
      simp only [hp, decide_eq_true_eq] at h
      exact Or.inr ⟨v, prop, rfl, rfl, h⟩

theorem approve_not_requested (env : Env) (s : Database) (P n : Nat) (L : permission_level)
    (hash : Option Nat) (hauth : has_auth2 env L = true) (hhash : hash_ok env s P n hash = true)
    (hrec : (s.apptable.find P n).isSome = true ∨ (s.old_apptable.find P n).isSome = true)
    (hL : L ∉ requested_levels s P n) :
    (approve env s P n L hash).status = some .not_requested ∧
    (approve env s P n L hash).db = s := by
  cases ha : s.apptable.find P n with
  | some apps =>
    have hfind : find_if (fun a => decide (a.level = L)) apps.requested_approvals =
        apps.requested_approvals.length := by
      rw [find_if_eq_length]
      intro x hx
      simp only [requested_levels, ha, levels, List.mem_map, not_exists, not_and] at hL
      simpa using hL x hx
    rcases hash_ok_cases env s P n hash hhash with rfl | ⟨v, prop, rfl, hp, hsha⟩
    · simp [approve, hauth, Run.abort, ha, hfind]
    · simp [approve, hauth, Run.abort, ha, hfind, hp, hsha]
  | none =>
    cases ho : s.old_apptable.find P n with
    | none => simp [ha, ho] at hrec
    | some apps =>
      have hfind : find_if (fun l => decide (l = L)) apps.requested_approvals =
          apps.requested_approvals.length := by
        rw [find_if_eq_length]
        intro x hx
        simp only [requested_levels, ha, ho] at hL
        simp only [decide_eq_false_iff_not]
        rintro rfl
        exact hL hx
      rcases hash_ok_cases env s P n hash hhash with rfl | ⟨v, prop, rfl, hp, hsha⟩
      · simp [approve, hauth, Run.abort, ha, ho, hfind]
      · simp [approve, hauth, Run.abort, ha, ho, hfind, hp, hsha]

theorem eraseIdx_find_if_perm (L : permission_level) (xs : List permission_level)
    (h : find_if (fun l => decide (l = L)) xs < xs.length) :
    (L :: xs.eraseIdx (find_if (fun l => decide (l = L)) xs)).Perm xs := by
  obtain ⟨before, e, after, hxs, he, -, her⟩ := find_if_split _ xs h
  have heL : e = L := by simpa using he
  rw [her]
  conv_rhs => rw [hxs]
  rw [heL]
  exact List.perm_middle.symm

theorem approve_timestamped (env : Env) (s : Database) (P n : Nat) (L : permission_level)
    (hash : Option Nat) (apps : approvals_info)
    (hauth : has_auth2 env L = true) (hhash : hash_ok env s P n hash = true)
    (ha : s.apptable.find P n = some apps)
    (hL : L ∈ levels apps.requested_approvals) :
    (approve env s P n L hash).status = none ∧
    (approve env s P n L hash).db = { s with apptable := s.apptable.put P n (some
      { apps with
        provided_approvals :=
          apps.provided_approvals ++ [{ level := L, time := current_time_point env }]
        requested_approvals := apps.requested_approvals.eraseIdx
          (find_if (fun a => decide (a.level = L)) apps.requested_approvals) }) } := by
  have hfind : ¬ find_if (fun a => decide (a.level = L)) apps.requested_approvals =
      apps.requested_approvals.length := by
    rw [find_if_eq_length]
    intro hall
    simp only [levels, List.mem_map] at hL
    obtain ⟨x, hx, hxl⟩ := hL
    simpa [hxl] using hall x hx
  rcases hash_ok_cases env s P n hash hhash with rfl | ⟨v, prop, rfl, hp, hsha⟩
  · simp [approve, hauth, Run.abort, ha, hfind]
  · simp [approve, hauth, Run.abort, ha, hfind, hp, hsha]

theorem unapprove_timestamped (env : Env) (s : Database) (P n : Nat) (L : permission_level)
    (apps : approvals_info) (hauth : has_auth2 env L = true)
    (ha : s.apptable.find P n = some apps)
    (hL : L ∈ levels apps.provided_approvals) :
    (unapprove env s P n L).status = none ∧
    (unapprove env s P n L).db = { s with apptable := s.apptable.put P n (some
      { apps with
        requested_approvals :=
          apps.requested_approvals ++ [{ level := L, time := current_time_point env }]
        provided_approvals := apps.provided_approvals.eraseIdx
          (find_if (fun a => decide (a.level = L)) apps.provided_approvals) }) } := by
  have hfind : ¬ find_if (fun a => decide (a.level = L)) apps.provided_approvals =
      apps.provided_approvals.length := by
    rw [find_if_eq_length]
    intro hall
    simp only [levels, List.mem_map] at hL
    obtain ⟨x, hx, hxl⟩ := hL
    simpa [hxl] using hall x hx
  simp [unapprove, hauth, Run.abort, ha, hfind]

/-! ## Cancel -/

theorem cancel_passes (env : Env) (s : Database) (P n C : Nat) (prop : proposal)
    (hC : has_auth env C = true) (hp : s.proptable.find P n = some prop)
    (hgate : C = P ∨ ∃ hdr, env.unpack_header prop.packed_transaction = some hdr ∧
      hdr.expiration < time_point_sec (current_time_point env)) :
    (∀ a, s.apptable.find P n = some a →
      (cancel env s P n C).status = none ∧
      (cancel env s P n C).db =
        { s with proptable := s.proptable.put P n none, apptable := s.apptable.put P n none }) ∧
    (s.apptable.find P n = none → ∀ a, s.old_apptable.find P n = some a →
      (cancel env s P n C).status = none ∧
      (cancel env s P n C).db =
        { s with proptable := s.proptable.put P n none,
                 old_apptable := s.old_apptable.put P n none }) := by
  refine ⟨?_, ?_⟩
  · intro a ha
    simp only [Table.find] at ha hp
    rcases hgate with hcp | ⟨h, hh, hx⟩
    · subst hcp
      simp [cancel, hp, hC, Run.abort, Table.find, Table.put, ha]
    · by_cases hcp : C = P
      · subst hcp
        simp [cancel, hp, hC, Run.abort, Table.find, Table.put, ha]
      · simp [cancel, hp, hC, hcp, hh, hx, Run.abort, Table.find, Table.put, ha]
  · intro ha a ho
    simp only [Table.find] at ha ho hp
    rcases hgate with hcp | ⟨h, hh, hx⟩
    · subst hcp
      simp [cancel, hp, hC, Run.abort, Table.find, Table.put, ha, ho]
    · by_cases hcp : C = P
      · subst hcp
        simp [cancel, hp, hC, Run.abort, Table.find, Table.put, ha, ho]
      · simp [cancel, hp, hC, hcp, hh, hx, Run.abort, Table.find, Table.put, ha, ho]

theorem cancel_blocked (env : Env) (s : Database) (P n C : Nat) (prop : proposal)
    (hdr : transaction_header)
    (hC : has_auth env C = true) (hp : s.proptable.find P n = some prop) (hne : C ≠ P)
    (hh : env.unpack_header prop.packed_transaction = some hdr)
    (hx : hdr.expiration ≥ time_point_sec (current_time_point env)) :
    (cancel env s P n C).status = some .cannot_cancel := by
  have hx' : ¬ hdr.expiration < time_point_sec (current_time_point env) := not_lt.mpr hx
  simp [cancel, hp, hC, hne, hh, hx', Run.abort]

theorem cancel_not_found (env : Env) (s : Database) (P n C : Nat)
    (hC : has_auth env C = true) (hp : s.proptable.find P n = none) :
    (cancel env s P n C).status = some .proposal_not_found := by
  simp [cancel, hp, hC, Run.abort]

/-! ## Store consistency -/

theorem consistent_put_both (s : Database) (P n : Nat) (hc : consistent s)
    (prop : Option proposal) (a : Option approvals_info) (h : prop.isSome = a.isSome) :
    consistent { s with proptable := s.proptable.put P n prop, apptable := s.apptable.put P n a } := by
  refine ⟨?_, hc.2⟩
  intro p k
  by_cases hk : p = P ∧ k = n
  · obtain ⟨rfl, rfl⟩ := hk
    simp only [Table.find_put_same]
    exact h
  · simp only [Table.find_put_other _ _ _ _ _ _ hk]
    exact hc.1 p k

theorem consistent_put_app (s : Database) (P n : Nat) (hc : consistent s)
    (a a' : approvals_info) (ha : s.apptable.find P n = some a) :
    consistent { s with apptable := s.apptable.put P n (some a') } := by
  refine ⟨?_, hc.2⟩
  intro p k
  by_cases hk : p = P ∧ k = n
  · obtain ⟨rfl, rfl⟩ := hk
    simp only [Table.find_put_same]
    rw [hc.1 p k, ha]
    rfl
  · simp only [Table.find_put_other _ _ _ _ _ _ hk]
    exact hc.1 p k

theorem consistent_step (env : Env) (s : Database) (call : Call) (hc : consistent s) :
    consistent (apply_action env s call) := by
  cases hst : (run env s call).status with
  | some e =>
    simp only [apply_action, hst]
    exact hc
  | none =>
    rw [apply_action_ok env s call hst]
    cases call with
    | propose P n R trx =>
      obtain ⟨-, -, hdb⟩ := propose_ok env s P n R trx hst
      simp only [run, hdb]
      exact consistent_put_both s P n hc _ _ rfl
    | approve P n L hash =>
      rcases approve_ok env s P n L hash hst with ⟨apps, ha, -, hdb⟩ | ⟨-, apps, ho, -, -⟩
      · simp only [run, hdb]
        exact consistent_put_app s P n hc apps _ ha
      · rw [hc.2 P n] at ho
        cases ho
    | unapprove P n L =>
      rcases unapprove_ok env s P n L hst with ⟨apps, ha, -, hdb⟩ | ⟨-, apps, ho, -, -⟩
      · simp only [run, hdb]
        exact consistent_put_app s P n hc apps _ ha
      · rw [hc.2 P n] at ho
        cases ho
    | cancel P n C =>
      rcases (cancel_ok env s P n C hst).2 with ⟨apps, -, hdb⟩ | ⟨-, apps, ho, -⟩
      · simp only [run, hdb]
        exact consistent_put_both s P n hc none none rfl
      · rw [hc.2 P n] at ho
        cases ho
    | exec P n E =>
      rcases (exec_ok env s P n E hst).2 with ⟨apps, -, hdb⟩ | ⟨-, apps, ho, -⟩
      · simp only [run, hdb]
        exact consistent_put_both s P n hc none none rfl
      · rw [hc.2 P n] at ho
        cases ho
    | invalidate A =>
      obtain ⟨-, -, hpt, hat, hot⟩ := invalidate_ok env s A hst
      refine ⟨?_, ?_⟩
      · intro p k
        simp only [run, hpt, hat]
        exact hc.1 p k
      · intro p k
        simp only [run, hot]
        exact hc.2 p k

theorem consistent_run_all (calls : List (Env × Call)) (s : Database) (hc : consistent s) :
    consistent (run_all s calls) := by
  induction calls generalizing s with
  | nil => exact hc
  | cons c rest ih => exact ih _ (consistent_step c.1 s c.2 hc)

theorem consistent_reached (calls : List (Env × Call)) : consistent (reached calls) := by
  refine consistent_run_all calls _ ⟨?_, ?_⟩
  · intro P n; rfl
  · intro P n; rfl

/-! ## Frame -/

theorem run_frame (env : Env) (s : Database) (call : Call) (P n : Nat)
    (ht : target call = some (P, n)) (hst : (run env s call).status = none)
    (p k : Nat) (hk : ¬ (p = P ∧ k = n)) :
    (run env s call).db.proptable.find p k = s.proptable.find p k ∧
    (run env s call).db.apptable.find p k = s.apptable.find p k ∧
    (run env s call).db.old_apptable.find p k = s.old_apptable.find p k := by
  cases call with
  | invalidate A => simp [target] at ht
  | propose P' n' R trx =>
    simp only [target, Option.some.injEq, Prod.mk.injEq] at ht
    obtain ⟨rfl, rfl⟩ := ht
    obtain ⟨-, -, hdb⟩ := propose_ok env s _ _ R trx hst
    simp only [run, hdb, Table.find_put_other _ _ _ _ _ _ hk, and_self]
  | approve P' n' L hash =>
    simp only [target, Option.some.injEq, Prod.mk.injEq] at ht
    obtain ⟨rfl, rfl⟩ := ht
    rcases approve_ok env s _ _ L hash hst with ⟨apps, -, -, hdb⟩ | ⟨-, apps, -, -, hdb⟩ <;>
      simp only [run, hdb, Table.find_put_other _ _ _ _ _ _ hk, and_self]
  | unapprove P' n' L =>
    simp only [target, Option.some.injEq, Prod.mk.injEq] at ht
    obtain ⟨rfl, rfl⟩ := ht
    rcases unapprove_ok env s _ _ L hst with ⟨apps, -, -, hdb⟩ | ⟨-, apps, -, -, hdb⟩ <;>
      simp only [run, hdb, Table.find_put_other _ _ _ _ _ _ hk, and_self]
  | cancel P' n' C =>
    simp only [target, Option.some.injEq, Prod.mk.injEq] at ht
    obtain ⟨rfl, rfl⟩ := ht
    rcases (cancel_ok env s _ _ C hst).2 with ⟨apps, -, hdb⟩ | ⟨-, apps, -, hdb⟩ <;>
      simp only [run, hdb, Table.find_put_other _ _ _ _ _ _ hk, and_self]
  | exec P' n' E =>
    simp only [target, Option.some.injEq, Prod.mk.injEq] at ht
    obtain ⟨rfl, rfl⟩ := ht
    rcases (exec_ok env s _ _ E hst).2 with ⟨apps, -, hdb⟩ | ⟨-, apps, -, hdb⟩ <;>
      simp only [run, hdb, Table.find_put_other _ _ _ _ _ _ hk, and_self]

theorem apply_action_frame (env : Env) (s : Database) (call : Call) (P n : Nat)
    (ht : target call = some (P, n)) (p k : Nat) (hk : ¬ (p = P ∧ k = n)) :
    (apply_action env s call).proptable.find p k = s.proptable.find p k ∧
    (apply_action env s call).apptable.find p k = s.apptable.find p k ∧
    (apply_action env s call).old_apptable.find p k = s.old_apptable.find p k := by
  cases hst : (run env s call).status with
  | some e => simp only [apply_action, hst, and_self]
  | none =>
    rw [apply_action_ok env s call hst]
    exact run_frame env s call P n ht hst p k hk

theorem apply_action_invalidate_tables (env : Env) (s : Database) (A : Nat) :
    (apply_action env s (.invalidate A)).proptable = s.proptable ∧
    (apply_action env s (.invalidate A)).apptable = s.apptable ∧
    (apply_action env s (.invalidate A)).old_apptable = s.old_apptable := by
  cases hst : (run env s (.invalidate A)).status with
  | some e => simp only [apply_action, hst, and_self]
  | none =>
    rw [apply_action_ok env s _ hst]
    obtain ⟨-, -, hpt, hat, hot⟩ := invalidate_ok env s A hst
    exact ⟨hpt, hat, hot⟩

theorem apply_action_keeps_registry (env : Env) (s : Database) (call : Call) (A : Nat)
    (it : invalidation) (h : s.inv_table A = some it) :
    ∃ it', (apply_action env s call).inv_table A = some it' := by
  by_cases hc : ∀ B, call ≠ .invalidate B
  · rw [apply_action_inv_table env s call hc]
    exact ⟨it, h⟩
  · push_neg at hc
    obtain ⟨B, rfl⟩ := hc
    cases hst : (run env s (.invalidate B)).status with
    | some e =>
      simp only [apply_action, hst]
      exact ⟨it, h⟩
    | none =>
      rw [apply_action_ok env s _ hst]
      obtain ⟨⟨it', hit, -⟩, hother, -⟩ := invalidate_ok env s B hst
      by_cases hB : A = B
      · subst hB
        exact ⟨it', hit⟩
      · exact ⟨it, by rw [← h]; exact hother A hB⟩

/-! ## Cancel, propose and invalidate: what they do -/

theorem apply_action_aborted (env : Env) (s : Database) (call : Call) (e : Error)
    (h : (run env s call).status = some e) : apply_action env s call = s := by
  simp only [apply_action, h]

theorem cancel_deletes (env : Env) (s : Database) (P n C : Nat)
    (hst : (run env s (.cancel P n C)).status = none) :
    (apply_action env s (.cancel P n C)).proptable.find P n = none ∧
    (apply_action env s (.cancel P n C)).apptable.find P n = none ∧
    ((s.apptable.find P n = none ∨ s.old_apptable.find P n = none) →
      (apply_action env s (.cancel P n C)).old_apptable.find P n = none) := by
  rw [apply_action_ok env s _ hst]
  simp only [run] at hst ⊢
  rcases (cancel_ok env s P n C hst).2 with ⟨apps, ha, hdb⟩ | ⟨ha, apps, -, hdb⟩
  · rw [hdb]
    refine ⟨Table.find_put_same _ _ _ _, Table.find_put_same _ _ _ _, ?_⟩
    rintro (h | h)
    · rw [ha] at h; cases h
    · exact h
  · rw [hdb]
    exact ⟨Table.find_put_same _ _ _ _, ha, fun _ => Table.find_put_same _ _ _ _⟩

theorem invalidate_db (env : Env) (s : Database) (A : Nat) (hA : has_auth env A = true) :
    (invalidate env s A).status = none ∧
    (invalidate env s A).db =
      { s with inv_table := fun k =>
          if k = A then
            some ⟨(match s.inv_table A with
                   | none => A
                   | some it => it.account), current_time_point env⟩
          else s.inv_table k } := by
  cases h : s.inv_table A <;> simp [invalidate, hA, h]

theorem propose_aborts_on_existing (env : Env) (s : Database) (P n : Nat)
    (R : List permission_level) (tx : Bytes) (prop : proposal)
    (hp : s.proptable.find P n = some prop) :
    (propose env s P n R tx).status ≠ none := by
  simp only [propose, Run.abort, hp]
  repeat' split
  all_goals simp_all

/-! ## One proposal through a sequence of invocations -/

theorem kept_step (env : Env) (s : Database) (call : Call) (P n : Nat)
    (R : List permission_level) (hkeep : keeps_proposal P n call = true)
    (h : ∃ a, s.apptable.find P n = some a ∧
      (levels a.requested_approvals ++ levels a.provided_approvals).Perm R) :
    ∃ a, (apply_action env s call).apptable.find P n = some a ∧
      (levels a.requested_approvals ++ levels a.provided_approvals).Perm R := by
  obtain ⟨a, ha, hperm⟩ := h
  cases hst : (run env s call).status with
  | some e =>
    rw [apply_action_aborted env s call e hst]
    exact ⟨a, ha, hperm⟩
  | none =>
    cases call with
    | invalidate A =>
      rw [(apply_action_invalidate_tables env s A).2.1]
      exact ⟨a, ha, hperm⟩
    | propose P' n' R' trx =>
      have hk : ¬ (P = P' ∧ n = n') := by
        rintro ⟨rfl, rfl⟩
        simp [keeps_proposal] at hkeep
      rw [(apply_action_frame env s (.propose P' n' R' trx) P' n' rfl P n hk).2.1]
      exact ⟨a, ha, hperm⟩
    | cancel P' n' C =>
      have hk : ¬ (P = P' ∧ n = n') := by
        rintro ⟨rfl, rfl⟩
        simp [keeps_proposal] at hkeep
      rw [(apply_action_frame env s (.cancel P' n' C) P' n' rfl P n hk).2.1]
      exact ⟨a, ha, hperm⟩
    | exec P' n' E =>
      have hk : ¬ (P = P' ∧ n = n') := by
        rintro ⟨rfl, rfl⟩
        simp [keeps_proposal] at hkeep
      rw [(apply_action_frame env s (.exec P' n' E) P' n' rfl P n hk).2.1]
      exact ⟨a, ha, hperm⟩
    | approve P' n' L hash =>
      by_cases hk : P = P' ∧ n = n'
      · obtain ⟨rfl, rfl⟩ := hk
        rw [apply_action_ok env s _ hst]
        simp only [run] at hst ⊢
        rcases approve_ok env s P n L hash hst with ⟨apps, ha', hlt, hdb⟩ | ⟨hnone, -⟩
        · rw [ha] at ha'
          cases ha'
          rw [hdb]
          refine ⟨_, Table.find_put_same _ _ _ _, List.Perm.trans ?_ hperm⟩
          have h := levels_eraseIdx_perm L a.requested_approvals hlt
          simp only [levels, List.map_append, List.map_cons, List.map_nil] at h ⊢
          refine List.Perm.trans ?_ (List.Perm.append_right _ h)
          simp only [List.cons_append]
          refine List.Perm.trans ?_ List.perm_middle
          exact List.Perm.append_left _ (List.perm_append_comm)
        · rw [ha] at hnone
          cases hnone
      · rw [(apply_action_frame env s (.approve P' n' L hash) P' n' rfl P n hk).2.1]
        exact ⟨a, ha, hperm⟩
    | unapprove P' n' L =>
      by_cases hk : P = P' ∧ n = n'
      · obtain ⟨rfl, rfl⟩ := hk
        rw [apply_action_ok env s _ hst]
        simp only [run] at hst ⊢
        rcases unapprove_ok env s P n L hst with ⟨apps, ha', hlt, hdb⟩ | ⟨hnone, -⟩
        · rw [ha] at ha'
          cases ha'
          rw [hdb]
          refine ⟨_, Table.find_put_same _ _ _ _, List.Perm.trans ?_ hperm⟩
          have h := levels_eraseIdx_perm L a.provided_approvals hlt
          simp only [levels, List.map_append, List.map_cons, List.map_nil] at h ⊢
          refine List.Perm.trans ?_ (List.Perm.append_left _ h)
          simp only [List.append_assoc, List.singleton_append]
          exact List.Perm.refl _
        · rw [ha] at hnone
          cases hnone
      · rw [(apply_action_frame env s (.unapprove P' n' L) P' n' rfl P n hk).2.1]
        exact ⟨a, ha, hperm⟩

theorem kept_run_all (calls : List (Env × Call)) (s : Database) (P n : Nat)
    (R : List permission_level)
    (hkeep : calls.all (fun c => keeps_proposal P n c.2) = true)
    (h : ∃ a, s.apptable.find P n = some a ∧
      (levels a.requested_approvals ++ levels a.provided_approvals).Perm R) :
    ∃ a, (run_all s calls).apptable.find P n = some a ∧
      (levels a.requested_approvals ++ levels a.provided_approvals).Perm R := by
  induction calls generalizing s with
  | nil => exact h
  | cons c rest ih =>
    simp only [List.all_cons, Bool.and_eq_true] at hkeep
    exact ih _ hkeep.2 (kept_step c.1 s c.2 P n R hkeep.1 h)

/-! ## The expiry gates and the sender id -/

theorem exec_expired_iff (env : Env) (s : Database) (P n E : Nat) (prop : proposal)
    (hdr : transaction_header) (hE : has_auth env E = true)
    (hp : s.proptable.find P n = some prop)
    (hh : env.unpack_header prop.packed_transaction = some hdr) :
    (exec env s P n E).status = some .transaction_expired ↔ exec_gate env hdr = false := by
  by_cases hx : hdr.expiration ≥ time_point_sec (current_time_point env)
  · have hg : exec_gate env hdr = true := by simp [exec_gate, hx]
    rw [hg]
    cases ha : s.apptable.find P n <;> cases ho : s.old_apptable.find P n <;>
      simp only [exec, Run.abort, hE, hp, hh, ha, ho] <;> (repeat' split) <;> simp_all
  · have hg : exec_gate env hdr = false := by simp [exec_gate, hx]
    rw [hg]
    simp [exec, Run.abort, hE, hp, hh, hx]

theorem cancel_blocked_iff (env : Env) (s : Database) (P n C : Nat) (prop : proposal)
    (hdr : transaction_header) (hC : has_auth env C = true) (hne : C ≠ P)
    (hp : s.proptable.find P n = some prop)
    (hh : env.unpack_header prop.packed_transaction = some hdr) :
    (cancel env s P n C).status = some .cannot_cancel ↔ cancel_gate env hdr = false := by
  by_cases hx : hdr.expiration < time_point_sec (current_time_point env)
  · have hg : cancel_gate env hdr = true := by simp [cancel_gate, hx]
    rw [hg]
    simp only [cancel, Run.abort, hC, hp, hh, hne, hx]
    (repeat' split) <;> simp_all
  · have hg : cancel_gate env hdr = false := by simp [cancel_gate, hx]
    rw [hg]
    simp [cancel_blocked env s P n C prop hdr hC hp hne hh (not_lt.mp hx)]

theorem propose_expired_iff (env : Env) (s : Database) (P n : Nat)
    (R : List permission_level) (tx : Bytes) (hdr : transaction_header)
    (hP : has_auth env P = true) (hh : env.unpack_header tx = some hdr) :
    (propose env s P n R tx).status = some .transaction_expired ↔ exec_gate env hdr = false := by
  by_cases hx : hdr.expiration ≥ time_point_sec (current_time_point env)
  · have hg : exec_gate env hdr = true := by simp [exec_gate, hx]
    rw [hg]
    simp only [propose, Run.abort, hP, hh, hx]
    (repeat' split) <;> simp_all
  · have hg : exec_gate env hdr = false := by simp [exec_gate, hx]
    rw [hg]
    simp [propose, Run.abort, hP, hh, hx]

theorem exec_deferred_sender (env : Env) (s : Database) (P n E : Nat) :
    ∀ d ∈ (exec env s P n E).deferred, d.sender_id = sender_id P n := by
  cases ha : s.apptable.find P n <;> cases ho : s.old_apptable.find P n <;>
    simp only [exec, Run.abort, ha, ho] <;> (repeat' split) <;> simp

/-! ## The legacy table -/

theorem apply_action_old_none (env : Env) (s : Database) (call : Call) (P n : Nat)
    (h : s.old_apptable.find P n = none) :
    (apply_action env s call).old_apptable.find P n = none := by
  cases hst : (run env s call).status with
  | some e =>
    rw [apply_action_aborted env s call e hst]
    exact h
  | none =>
    cases call with
    | invalidate A =>
      rw [(apply_action_invalidate_tables env s A).2.2]
      exact h
    | propose P' n' R trx =>
      rw [apply_action_ok env s _ hst]
      simp only [run] at hst ⊢
      obtain ⟨-, -, hdb⟩ := propose_ok env s P' n' R trx hst
      rw [hdb]
      exact h
    | approve P' n' L hash =>
      by_cases hk : P = P' ∧ n = n'
      · obtain ⟨rfl, rfl⟩ := hk
        rw [apply_action_ok env s _ hst]
        simp only [run] at hst ⊢
        rcases approve_ok env s P n L hash hst with ⟨apps, -, -, hdb⟩ | ⟨-, apps, ho, -, -⟩
        · rw [hdb]; exact h
        · rw [h] at ho; cases ho
      · rw [(apply_action_frame env s (.approve P' n' L hash) P' n' rfl P n hk).2.2]
        exact h
    | unapprove P' n' L =>
      by_cases hk : P = P' ∧ n = n'
      · obtain ⟨rfl, rfl⟩ := hk
        rw [apply_action_ok env s _ hst]
        simp only [run] at hst ⊢
        rcases unapprove_ok env s P n L hst with ⟨apps, -, -, hdb⟩ | ⟨-, apps, ho, -, -⟩
        · rw [hdb]; exact h
        · rw [h] at ho; cases ho
      · rw [(apply_action_frame env s (.unapprove P' n' L) P' n' rfl P n hk).2.2]
        exact h
    | cancel P' n' C =>
      by_cases hk : P = P' ∧ n = n'
      · obtain ⟨rfl, rfl⟩ := hk
        rw [apply_action_ok env s _ hst]
        simp only [run] at hst ⊢
        rcases (cancel_ok env s P n C hst).2 with ⟨apps, -, hdb⟩ | ⟨-, apps, ho, -⟩
        · rw [hdb]; exact h
        · rw [h] at ho; cases ho
      · rw [(apply_action_frame env s (.cancel P' n' C) P' n' rfl P n hk).2.2]
        exact h
    | exec P' n' E =>
      by_cases hk : P = P' ∧ n = n'
      · obtain ⟨rfl, rfl⟩ := hk
        rw [apply_action_ok env s _ hst]
        simp only [run] at hst ⊢
        rcases (exec_ok env s P n E hst).2 with ⟨apps, -, hdb⟩ | ⟨-, apps, ho, -⟩
        · rw [hdb]; exact h
        · rw [h] at ho; cases ho
      · rw [(apply_action_frame env s (.exec P' n' E) P' n' rfl P n hk).2.2]
        exact h

theorem approve_no_record (env : Env) (s : Database) (P n : Nat) (L : permission_level)
    (hash : Option Nat) (hL : has_auth2 env L = true) (hp : s.proptable.find P n = none)
    (ha : s.apptable.find P n = none) (ho : s.old_apptable.find P n = none) :
    (approve env s P n L hash).status = some .proposal_not_found := by
  cases hash <;> simp [approve, Run.abort, hL, hp, ha, ho]

theorem unapprove_no_record (env : Env) (s : Database) (P n : Nat) (L : permission_level)
    (hL : has_auth2 env L = true)
    (ha : s.apptable.find P n = none) (ho : s.old_apptable.find P n = none) :
    (unapprove env s P n L).status = some .proposal_not_found := by
  simp [unapprove, Run.abort, hL, ha, ho]

theorem exec_not_found (env : Env) (s : Database) (P n E : Nat)
    (hE : has_auth env E = true) (hp : s.proptable.find P n = none) :
    (exec env s P n E).status = some .proposal_not_found := by
  simp [exec, hp, hE, Run.abort]

theorem propose_key_free (env : Env) (s : Database) (P n : Nat) (R : List permission_level)
    (tx : Bytes)
    (h : (s.proptable.find P n).isSome = (s.apptable.find P n).isSome) :
    (propose env s P n R tx).status ≠ some .key_exists := by
  simp only [propose, Run.abort]
  repeat' split
  all_goals simp_all

/-! ## Aborted actions -/

/-- C1: an action that aborts leaves the proposal store, both approval tables and
the invalidation registry as they were before the call. In particular `exec`
with a non-positive verdict of `check_transaction_authorization` aborts and both
records of the proposal are still there afterwards, although at the abort the
working store had lost the approval record; and `cancel` of a proposal without
any approval record aborts and the proposal record is still there afterwards,
although at the abort the working store had lost it. -/
theorem failed_action_keeps_stores :
    (∀ (env : Env) (s : Database) (call : Call),
      (run env s call).status ≠ none → apply_action env s call = s) ∧
    (∀ (env : Env) (s : Database) (P n E : Nat) (prop : proposal) (apps : approvals_info),
      s.proptable.find P n = some prop → s.apptable.find P n = some apps →
      env.check_transaction_authorization prop.packed_transaction
        (collect_approvals s.inv_table apps.provided_approvals []) ≤ 0 →
      (run env s (.exec P n E)).status ≠ none ∧
      (apply_action env s (.exec P n E)).proptable.find P n = some prop ∧
      (apply_action env s (.exec P n E)).apptable.find P n = some apps ∧
      (has_auth env E = true →
        (∃ h, env.unpack_header prop.packed_transaction = some h ∧
          h.expiration ≥ time_point_sec (current_time_point env)) →
        (run env s (.exec P n E)).status = some .authorization_failed ∧
        (run env s (.exec P n E)).db.apptable.find P n = none)) ∧
    (∀ (env : Env) (s : Database) (P n C : Nat) (prop : proposal),
      s.proptable.find P n = some prop → s.apptable.find P n = none →
      s.old_apptable.find P n = none →
      (run env s (.cancel P n C)).status ≠ none ∧
      (apply_action env s (.cancel P n C)).proptable.find P n = some prop ∧
      (has_auth env C = true →
        (C = P ∨ ∃ h, env.unpack_header prop.packed_transaction = some h ∧
          h.expiration < time_point_sec (current_time_point env)) →
        (run env s (.cancel P n C)).status = some .proposal_not_found ∧
        (run env s (.cancel P n C)).db.proptable.find P n = none)) := by
  have key : ∀ (env : Env) (s : Database) (call : Call),
      (run env s call).status ≠ none → apply_action env s call = s := by
    intro env s call h
    unfold apply_action
    cases hst : (run env s call).status with
    | none => exact absurd hst h
    | some e => rfl
  refine ⟨key, ?_, ?_⟩
  · intro env s P n E prop apps hp ha hv
    have hfail : (run env s (.exec P n E)).status ≠ none := by
      simp only [run, exec, hp, ha]
      by_cases hE : has_auth env E = true
      · cases hh : env.unpack_header prop.packed_transaction with
        | none => simp [hE, Run.abort]
        | some h =>
          by_cases hx : h.expiration ≥ time_point_sec (current_time_point env)
          · simp [hE, hx, Run.abort, hv]
          · simp [hE, hx, Run.abort]
      · simp [hE, Run.abort]
    refine ⟨hfail, ?_, ?_, ?_⟩
    · rw [key env s _ hfail]; exact hp
    · rw [key env s _ hfail]; exact ha
    · rintro hE ⟨h, hh, hx⟩
      simp [run, exec, hp, ha, hE, hh, hx, hv, Run.abort, Table.find_put_same]
  · intro env s P n C prop hp ha ho
    have hfail : (run env s (.cancel P n C)).status ≠ none := by
      simp only [run, cancel, hp]
      by_cases hC : has_auth env C = true
      · by_cases hcp : C = P
        · subst hcp
          simp [Table.find] at ha ho
          simp [hC, Run.abort, Table.find, Table.put, ha, ho]
        · cases hh : env.unpack_header prop.packed_transaction with
          | none => simp [hC, hcp, Run.abort]
          | some h =>
            by_cases hx : h.expiration < time_point_sec (current_time_point env)
            · simp [Table.find] at ha ho
              simp [hC, hcp, hx, Run.abort, Table.find, Table.put, ha, ho]
            · simp [hC, hcp, hx, Run.abort]
      · simp [hC, Run.abort]
    refine ⟨hfail, ?_, ?_⟩
    · rw [key env s _ hfail]; exact hp
    · intro hC hcase
      have hnone : (if C ≠ P then
          match env.unpack_header prop.packed_transaction with
          | none => some Error.read
          | some trx_header =>
            if trx_header.expiration < time_point_sec (current_time_point env) then none
            else some Error.cannot_cancel
          else none) = none := by
        rcases hcase with hcp | ⟨h, hh, hx⟩
        · simp [hcp]
        · simp [hh, hx]
      simp only [run, cancel, hp, hC, hnone]
      simp [Table.find] at ha ho
      simp [Run.abort, Table.find, Table.put, ha, ho]

theorem failed_action_keeps_stores_witness :
    apply_action (sample_env 8000000 [L3] accept_all) Database.empty (.exec 10 2 12) =
      Database.empty ∧
    ((run (sample_env 8000000 [L3] reject_all) (reached approved_history)
        (.exec 10 2 12)).status = some .authorization_failed ∧
      (run (sample_env 8000000 [L3] reject_all) (reached approved_history)
        (.exec 10 2 12)).db.apptable.find 10 2 = none) ∧
    (apply_action (sample_env 8000000 [L3] reject_all) (reached approved_history)
        (.exec 10 2 12)).apptable.find 10 2 =
      some ⟨2, [], [⟨L1, 6000000⟩, ⟨L2, 7000000⟩]⟩ ∧
    ((run (sample_env 8000000 [L1] accept_all) orphan_store (.cancel 10 2 10)).status =
        some .proposal_not_found ∧
      (run (sample_env 8000000 [L1] accept_all) orphan_store
        (.cancel 10 2 10)).db.proptable.find 10 2 = none) ∧
    (apply_action (sample_env 8000000 [L1] accept_all) orphan_store
        (.cancel 10 2 10)).proptable.find 10 2 = some ⟨2, tx0⟩ :=
  ⟨failed_action_keeps_stores.1 (sample_env 8000000 [L3] accept_all) Database.empty
      (.exec 10 2 12) (by decide),
    (failed_action_keeps_stores.2.1 (sample_env 8000000 [L3] reject_all)
      (reached approved_history) 10 2 12 ⟨2, tx0⟩ ⟨2, [], [⟨L1, 6000000⟩, ⟨L2, 7000000⟩]⟩
      (by decide) (by decide) (by decide)).2.2.2 (by decide) ⟨⟨100⟩, by decide, by decide⟩,
    (failed_action_keeps_stores.2.1 (sample_env 8000000 [L3] reject_all)
      (reached approved_history) 10 2 12 ⟨2, tx0⟩ ⟨2, [], [⟨L1, 6000000⟩, ⟨L2, 7000000⟩]⟩
      (by decide) (by decide) (by decide)).2.2.1,
    (failed_action_keeps_stores.2.2 (sample_env 8000000 [L1] accept_all) orphan_store 10 2 10
      ⟨2, tx0⟩ (by decide) (by decide) (by decide)).2.2 (by decide) (Or.inl rfl),
    (failed_action_keeps_stores.2.2 (sample_env 8000000 [L1] accept_all) orphan_store 10 2 10
      ⟨2, tx0⟩ (by decide) (by decide) (by decide)).2.1⟩

/-! ## Execution -/

/-- C2: when the proposal record and a timestamped approval record exist, the
stored transaction has not expired and the authorization check accepts the
stored bytes with the live approvals, `exec` called with the executer's
authority runs to its end, the proposal and its approval record are gone, and
one deferred transaction is sent, with sender id `P * 2^64 + n`, payer `E` and
the stored bytes. -/
theorem exec_consumes_and_schedules (env : Env) (s : Database) (P n E : Nat)
    (prop : proposal) (apps : approvals_info) (hdr : transaction_header)
    (hP : P < 2 ^ 64) (hn : n < 2 ^ 64)
    (hE : has_auth env E = true)
    (hp : s.proptable.find P n = some prop)
    (ha : s.apptable.find P n = some apps)
    (hh : env.unpack_header prop.packed_transaction = some hdr)
    (hx : hdr.expiration ≥ time_point_sec (current_time_point env))
    (hv : 0 < env.check_transaction_authorization prop.packed_transaction
      (spec_live_levels s.inv_table apps.provided_approvals)) :
    (run env s (.exec P n E)).status = none ∧
    (apply_action env s (.exec P n E)).proptable.find P n = none ∧
    (apply_action env s (.exec P n E)).apptable.find P n = none ∧
    (apply_action env s (.exec P n E)).old_apptable = s.old_apptable ∧
    (run env s (.exec P n E)).deferred =
      [{ sender_id := P * 2 ^ 64 + n, payer := E,
         serialized_transaction := prop.packed_transaction }] ∧
    sent env s (.exec P n E) = (run env s (.exec P n E)).deferred := by
  have hst : (run env s (.exec P n E)).status = none := by
    simp [run, exec, hE, hp, ha, hh, hx, collect_approvals_eq, hv]
  have hdb : (run env s (.exec P n E)).db =
      { s with apptable := s.apptable.put P n none, proptable := s.proptable.put P n none } := by
    simp [run, exec, hE, hp, ha, hh, hx, collect_approvals_eq, hv]
  have hdef : (run env s (.exec P n E)).deferred =
      [{ sender_id := P * 2 ^ 64 + n, payer := E,
         serialized_transaction := prop.packed_transaction }] := by
    simp [run, exec, hE, hp, ha, hh, hx, collect_approvals_eq, hv, sender_id_eq P n hP hn]
  have happ : apply_action env s (.exec P n E) = (run env s (.exec P n E)).db := by
    simp [apply_action, hst]
  refine ⟨hst, ?_, ?_, ?_, hdef, ?_⟩
  · rw [happ, hdb]; exact Table.find_put_same _ _ _ _
  · rw [happ, hdb]; exact Table.find_put_same _ _ _ _
  · rw [happ, hdb]
  · simp [sent, hst]

theorem exec_consumes_and_schedules_witness :
    (run (sample_env 8000000 [L3] needs_L1) (reached approved_history) (.exec 10 2 12)).status =
      none ∧
    (apply_action (sample_env 8000000 [L3] needs_L1) (reached approved_history)
      (.exec 10 2 12)).proptable.find 10 2 = none ∧
    (apply_action (sample_env 8000000 [L3] needs_L1) (reached approved_history)
      (.exec 10 2 12)).apptable.find 10 2 = none ∧
    (apply_action (sample_env 8000000 [L3] needs_L1) (reached approved_history)
      (.exec 10 2 12)).old_apptable = (reached approved_history).old_apptable ∧
    (run (sample_env 8000000 [L3] needs_L1) (reached approved_history)
      (.exec 10 2 12)).deferred =
      [{ sender_id := 10 * 2 ^ 64 + 2, payer := 12, serialized_transaction := tx0 }] ∧
    sent (sample_env 8000000 [L3] needs_L1) (reached approved_history) (.exec 10 2 12) =
      (run (sample_env 8000000 [L3] needs_L1) (reached approved_history)
        (.exec 10 2 12)).deferred :=
  exec_consumes_and_schedules (sample_env 8000000 [L3] needs_L1) (reached approved_history)
    10 2 12 ⟨2, tx0⟩ ⟨2, [], [⟨L1, 6000000⟩, ⟨L2, 7000000⟩]⟩ ⟨100⟩
    (by decide) (by decide) (by decide) (by decide) (by decide) (by decide) (by decide)
    (by decide)

/-- C3: the list `exec` hands to `check_transaction_authorization` for a proposal
with a timestamped approval record (the executer authenticated, the transaction
not expired, so that the check is reached) is the levels, in stored order, of the
`provided_approvals` entries that are live: no registry record for the level's
account, or a record with `last_invalidation_time` before the entry's timestamp.
An entry is dropped exactly when a record exists whose time is at or after the
timestamp, and `requested_approvals` plays no part. -/
theorem exec_submits_live_approvals (env : Env) (s : Database) (P n E : Nat) (prop : proposal)
    (apps : approvals_info) (hdr : transaction_header)
    (hE : has_auth env E = true)
    (hp : s.proptable.find P n = some prop)
    (ha : s.apptable.find P n = some apps)
    (hh : env.unpack_header prop.packed_transaction = some hdr)
    (hx : hdr.expiration ≥ time_point_sec (current_time_point env)) :
    (run env s (.exec P n E)).queried =
      [(prop.packed_transaction,
        (apps.provided_approvals.filter (fun p =>
          match s.inv_table p.level.actor with
          | none => true
          | some it => decide (it.last_invalidation_time < p.time))).map (fun p => p.level))] ∧
    (∀ p : approval, spec_live s.inv_table p = false ↔
      ∃ it, s.inv_table p.level.actor = some it ∧ it.last_invalidation_time ≥ p.time) ∧
    (∀ requested : List approval,
      (run env
        { s with apptable := s.apptable.put P n
                   (some { apps with requested_approvals := requested }) }
        (.exec P n E)).queried = (run env s (.exec P n E)).queried) := by
  refine ⟨?_, ?_, ?_⟩
  · exact (exec_reaches_check env s P n E prop apps hdr hE hp ha hh hx).1
  · intro p
    unfold spec_live
    cases hrow : s.inv_table p.level.actor with
    | none => simp
    | some it => simp
  · intro requested
    have h1 := (exec_reaches_check env s P n E prop apps hdr hE hp ha hh hx).1
    have h2 := (exec_reaches_check env
      { s with apptable := s.apptable.put P n
                 (some { apps with requested_approvals := requested }) }
      P n E prop { apps with requested_approvals := requested } hdr hE hp
      (Table.find_put_same _ _ _ _) hh hx).1
    simp only [run]
    rw [h1, h2]

theorem exec_submits_live_approvals_witness :
    (run (sample_env 8000000 [L3] accept_all) (reached invalidated_history)
      (.exec 10 2 12)).queried = [(tx0, [L1])] :=
  (exec_submits_live_approvals (sample_env 8000000 [L3] accept_all)
    (reached invalidated_history) 10 2 12 ⟨2, tx0⟩ ⟨2, [], [⟨L1, 6000000⟩, ⟨L2, 7000000⟩]⟩
    ⟨100⟩ (by decide) (by decide) (by decide) (by decide) (by decide)).1

/-- C4: with a clock that never decreases, after `invalidate(A)` ran to its end at
time `T`, in the store reached by any further invocations the list any `exec`
hands to `check_transaction_authorization` is drawn from the live entries, and no
entry of account `A` with a timestamp at or before `T` is live. As an instance,
after propose with `[L]`, approve `L` and invalidate of `L`'s account, `exec`
submits the empty list and aborts with "transaction authorization failed" when
the check does not accept the empty list. -/
theorem invalidate_voids_earlier_approvals :
    (∀ (env0 : Env) (s0 : Database) (A : Nat) (calls : List (Env × Call)),
      (run env0 s0 (.invalidate A)).status = none →
      nondecreasing (current_time_point env0) calls = true →
      ∀ (env : Env) (P n E : Nat) (apps : approvals_info),
        (run_all (apply_action env0 s0 (.invalidate A)) calls).apptable.find P n = some apps →
        (∀ q ∈ (run env (run_all (apply_action env0 s0 (.invalidate A)) calls)
            (.exec P n E)).queried,
          q.2 = (apps.provided_approvals.filter
            (spec_live (run_all (apply_action env0 s0 (.invalidate A)) calls).inv_table)).map
              (fun p => p.level)) ∧
        (∀ p ∈ apps.provided_approvals, p.level.actor = A →
          p.time ≤ current_time_point env0 →
          p ∉ apps.provided_approvals.filter
            (spec_live (run_all (apply_action env0 s0 (.invalidate A)) calls).inv_table))) ∧
    (∀ (env0 env1 env2 env3 : Env) (s0 : Database) (P n E : Nat) (L : permission_level)
      (tx : Bytes) (hash : Option Nat) (hdr : transaction_header),
      (run env0 s0 (.propose P n [L] tx)).status = none →
      (run env1 (apply_action env0 s0 (.propose P n [L] tx)) (.approve P n L hash)).status = none →
      (run env2 (apply_action env1 (apply_action env0 s0 (.propose P n [L] tx))
        (.approve P n L hash)) (.invalidate L.actor)).status = none →
      current_time_point env1 ≤ current_time_point env2 →
      has_auth env3 E = true →
      env3.unpack_header tx = some hdr →
      hdr.expiration ≥ time_point_sec (current_time_point env3) →
      env3.check_transaction_authorization tx [] ≤ 0 →
      (run env3 (apply_action env2 (apply_action env1 (apply_action env0 s0
          (.propose P n [L] tx)) (.approve P n L hash)) (.invalidate L.actor))
        (.exec P n E)).queried = [(tx, [])] ∧
      (run env3 (apply_action env2 (apply_action env1 (apply_action env0 s0
          (.propose P n [L] tx)) (.approve P n L hash)) (.invalidate L.actor))
        (.exec P n E)).status = some .authorization_failed) := by
  refine ⟨?_, ?_⟩
  · intro env0 s0 A calls hst hclock env P n E apps ha
    have hw0 : watermark (apply_action env0 s0 (.invalidate A)) A (current_time_point env0) := by
      obtain ⟨⟨it, hit, htime⟩, -⟩ := invalidate_ok env0 s0 A hst
      refine ⟨it, ?_, le_of_eq htime.symm⟩
      simp only [apply_action, hst]
      exact hit
    have hw := run_all_watermark calls _ A _ _ hclock (le_refl _) hw0
    refine ⟨exec_queried env _ P n E apps ha, ?_⟩
    intro p _ hA hp hmem
    have hlive := (List.mem_filter.mp hmem).2
    rw [watermark_not_live _ A _ hw p hA hp] at hlive
    exact absurd hlive (by simp)
  · intro env0 env1 env2 env3 s0 P n E L tx hash hdr h0 h1 h2 hclock hE hh hx hv
    -- the store after `propose`
    have hp1 : (apply_action env0 s0 (.propose P n [L] tx)).proptable.find P n =
        some ⟨n, tx⟩ := by
      obtain ⟨-, -, hdb⟩ := propose_ok env0 s0 P n [L] tx h0
      rw [apply_action_ok env0 s0 _ h0]
      simp only [run, hdb]
      exact Table.find_put_same _ _ _ _
    have ha1 : (apply_action env0 s0 (.propose P n [L] tx)).apptable.find P n =
        some ⟨n, [⟨L, 0⟩], []⟩ := by
      obtain ⟨-, -, hdb⟩ := propose_ok env0 s0 P n [L] tx h0
      rw [apply_action_ok env0 s0 _ h0]
      simp only [run, hdb]
      exact Table.find_put_same _ _ _ _
    generalize apply_action env0 s0 (.propose P n [L] tx) = s1 at h1 h2 hp1 ha1 ⊢
    -- the store after `approve`
    have hp2 : (apply_action env1 s1 (.approve P n L hash)).proptable.find P n =
        some ⟨n, tx⟩ := by
      rw [apply_action_ok env1 s1 _ h1]
      rcases approve_ok env1 s1 P n L hash h1 with ⟨apps, -, -, hdb⟩ | ⟨-, apps, -, -, hdb⟩ <;>
        simp only [run, hdb] <;> exact hp1
    have ha2 : (apply_action env1 s1 (.approve P n L hash)).apptable.find P n =
        some ⟨n, [], [⟨L, current_time_point env1⟩]⟩ := by
      rw [apply_action_ok env1 s1 _ h1]
      rcases approve_ok env1 s1 P n L hash h1 with ⟨apps, ha, -, hdb⟩ | ⟨hnone, -⟩
      · rw [ha1] at ha
        cases ha
        simp only [run, hdb]
        rw [Table.find_put_same]
        simp [find_if]
      · rw [ha1] at hnone
        cases hnone
    generalize apply_action env1 s1 (.approve P n L hash) = s2 at h2 hp2 ha2 ⊢
    -- the store after `invalidate`
    obtain ⟨⟨it, hit, htime⟩, -, hpt, hat, -⟩ := invalidate_ok env2 s2 L.actor h2
    have hs3 : apply_action env2 s2 (.invalidate L.actor) = (invalidate env2 s2 L.actor).db :=
      apply_action_ok env2 s2 _ h2
    rw [hs3]
    have hp3 : (invalidate env2 s2 L.actor).db.proptable.find P n = some ⟨n, tx⟩ := by
      rw [hpt]; exact hp2
    have ha3 : (invalidate env2 s2 L.actor).db.apptable.find P n =
        some ⟨n, [], [⟨L, current_time_point env1⟩]⟩ := by
      rw [hat]; exact ha2
    obtain ⟨hq, hor, hiff⟩ := exec_reaches_check env3 _ P n E _ _ hdr hE hp3 ha3 hh hx
    have hlive : spec_live_levels (invalidate env2 s2 L.actor).db.inv_table
        [⟨L, current_time_point env1⟩] = [] := by
      simp [spec_live_levels, spec_live, hit, htime, hclock]
    simp only [hlive] at hq hiff
    refine ⟨hq, ?_⟩
    rcases hor with hnone | hfail
    · exact absurd (hiff.mp hnone) (not_lt.mpr hv)
    · exact hfail

theorem invalidate_voids_earlier_approvals_witness :
    (∀ q ∈ (run (sample_env 9000000 [L3] accept_all)
        (run_all (apply_action (sample_env 7000000 [L2] accept_all) (reached approved_history)
          (.invalidate 11)) [(sample_env 8000000 [L1] accept_all, .unapprove 10 2 L1)])
        (.exec 10 2 12)).queried, q.2 = []) ∧
    ((run (sample_env 8000000 [L3] reject_all) (reached voided_history)
        (.exec 10 3 12)).queried = [(tx0, [])] ∧
      (run (sample_env 8000000 [L3] reject_all) (reached voided_history)
        (.exec 10 3 12)).status = some .authorization_failed) :=
  ⟨fun q hq => ((invalidate_voids_earlier_approvals.1 (sample_env 7000000 [L2] accept_all)
      (reached approved_history) 11 [(sample_env 8000000 [L1] accept_all, .unapprove 10 2 L1)]
      (by decide) (by decide) (sample_env 9000000 [L3] accept_all) 10 2 12
      ⟨2, [⟨L1, 8000000⟩], [⟨L2, 7000000⟩]⟩ (by decide)).1 q hq),
    invalidate_voids_earlier_approvals.2 (sample_env 5000000 [L1] accept_all)
      (sample_env 6000000 [L1] accept_all) (sample_env 7000000 [L1] accept_all)
      (sample_env 8000000 [L3] reject_all) Database.empty 10 3 12 L1 tx0 none ⟨100⟩
      (by decide) (by decide) (by decide) (by decide) (by decide) (by decide) (by decide)
      (by decide)⟩

/-! ## Invariants of the approval collections -/

/-- C5 (as stated, refuted): after `propose` with `L1` listed twice and one
`approve` of `L1`, the level `L1` is in both collections of the proposal. -/
theorem requested_provided_overlap :
    ¬ (∀ (calls : List (Env × Call)) (P n : Nat) (a : approvals_info),
        (reached calls).apptable.find P n = some a →
        ∀ l, l ∈ levels a.requested_approvals → l ∉ levels a.provided_approvals) := by
  intro h
  have ha : (reached repeated_history).apptable.find 10 2 =
      some ⟨2, [⟨L1, 0⟩], [⟨L1, 6000000⟩]⟩ := by decide
  exact h repeated_history 10 2 _ ha L1 (by decide) (by decide)

/-- C5 (amended): in every store reached from the empty stores, a proposal whose
creation list has no repeated level has disjoint `requested_approvals` and
`provided_approvals`. -/
theorem requested_provided_disjoint (calls : List (Env × Call)) (P n : Nat)
    (a : approvals_info) (R : List permission_level)
    (ha : (reached calls).apptable.find P n = some a)
    (hR : created calls P n = some R) (hnodup : R.Nodup) :
    ∀ l, l ∈ levels a.requested_approvals → l ∉ levels a.provided_approvals := by
  obtain ⟨R', hR', hperm⟩ := conserved_reached calls P n a ha
  rw [hR] at hR'
  cases hR'
  have hnd : (levels a.requested_approvals ++ levels a.provided_approvals).Nodup :=
    hperm.nodup_iff.mpr hnodup
  intro l hl hl'
  exact (List.nodup_append.mp hnd).2.2 hl hl'

theorem requested_provided_disjoint_witness :
    L2 ∉ levels [(⟨L1, 6000000⟩ : approval)] :=
  requested_provided_disjoint (approved_history.take 2) 10 2
    ⟨2, [⟨L2, 0⟩], [⟨L1, 6000000⟩]⟩ [L1, L2] (by decide) (by decide) (by decide) L2 (by decide)

/-- C6: in every store reached from the empty stores, every level in
`requested_approvals` or `provided_approvals` of a proposal is an element of the
list the proposal was created with. -/
theorem approvals_within_requested (calls : List (Env × Call)) (P n : Nat)
    (a : approvals_info) (ha : (reached calls).apptable.find P n = some a) :
    ∃ R, created calls P n = some R ∧
      ∀ l, l ∈ levels a.requested_approvals ∨ l ∈ levels a.provided_approvals → l ∈ R := by
  obtain ⟨R, hR, hperm⟩ := conserved_reached calls P n a ha
  refine ⟨R, hR, ?_⟩
  intro l hl
  exact hperm.subset (List.mem_append.mpr hl)

theorem approvals_within_requested_witness :
    ∃ R, created approved_history 10 2 = some R ∧
      ∀ l, l ∈ levels [] ∨ l ∈ levels [(⟨L1, 6000000⟩ : approval), ⟨L2, 7000000⟩] → l ∈ R :=
  approvals_within_requested approved_history 10 2
    ⟨2, [], [⟨L1, 6000000⟩, ⟨L2, 7000000⟩]⟩ (by decide)

/-! ## Approve and unapprove: the claims -/

/-- C7: while a proposal created with the list `R` is stored, `approve` called
with the authority of a level `L` outside `R` and without a hash aborts with
"approval is not on the list of requested approvals" and the store stays as it
was. More generally, in any store, `approve` of a level that is not in
`requested_approvals` of the existing approval record aborts with that message
(the caller holding the level's authority, and the hash, when given, matching). -/
theorem approve_unrequested_fails :
    (∀ (calls : List (Env × Call)) (env : Env) (P n : Nat) (L : permission_level)
      (R : List permission_level) (a : approvals_info),
      (reached calls).apptable.find P n = some a →
      created calls P n = some R → L ∉ R → has_auth2 env L = true →
      (run env (reached calls) (.approve P n L none)).status = some .not_requested ∧
      apply_action env (reached calls) (.approve P n L none) = reached calls) ∧
    (∀ (env : Env) (s : Database) (P n : Nat) (L : permission_level) (hash : Option Nat),
      has_auth2 env L = true → hash_ok env s P n hash = true →
      ((s.apptable.find P n).isSome = true ∨ (s.old_apptable.find P n).isSome = true) →
      L ∉ requested_levels s P n →
      (run env s (.approve P n L hash)).status = some .not_requested ∧
      apply_action env s (.approve P n L hash) = s) := by
  have general : ∀ (env : Env) (s : Database) (P n : Nat) (L : permission_level)
      (hash : Option Nat),
      has_auth2 env L = true → hash_ok env s P n hash = true →
      ((s.apptable.find P n).isSome = true ∨ (s.old_apptable.find P n).isSome = true) →
      L ∉ requested_levels s P n →
      (run env s (.approve P n L hash)).status = some .not_requested ∧
      apply_action env s (.approve P n L hash) = s := by
    intro env s P n L hash hauth hhash hrec hL
    have h := (approve_not_requested env s P n L hash hauth hhash hrec hL).1
    refine ⟨h, ?_⟩
    simp only [apply_action, run, h]
  refine ⟨?_, general⟩
  intro calls env P n L R a ha hR hL hauth
  refine general env (reached calls) P n L none hauth rfl (Or.inl (by simp [ha])) ?_
  obtain ⟨R', hR', hperm⟩ := conserved_reached calls P n a ha
  rw [hR] at hR'
  cases hR'
  intro hmem
  simp only [requested_levels, ha] at hmem
  exact hL (hperm.subset (List.mem_append_left _ hmem))

theorem approve_unrequested_fails_witness :
    ((run (sample_env 6000000 [L3] accept_all) (reached (approved_history.take 1))
        (.approve 10 2 L3 none)).status = some .not_requested ∧
      apply_action (sample_env 6000000 [L3] accept_all) (reached (approved_history.take 1))
        (.approve 10 2 L3 none) = reached (approved_history.take 1)) ∧
    ((run (sample_env 8000000 [L1] accept_all) (reached approved_history)
        (.approve 10 2 L1 (some 5))).status = some .not_requested ∧
      apply_action (sample_env 8000000 [L1] accept_all) (reached approved_history)
        (.approve 10 2 L1 (some 5)) = reached approved_history) :=
  ⟨approve_unrequested_fails.1 (approved_history.take 1) (sample_env 6000000 [L3] accept_all)
      10 2 L3 [L1, L2] ⟨2, [⟨L1, 0⟩, ⟨L2, 0⟩], []⟩ (by decide) (by decide) (by decide)
      (by decide),
    approve_unrequested_fails.2 (sample_env 8000000 [L1] accept_all) (reached approved_history)
      10 2 L1 (some 5) (by decide) (by decide) (by decide) (by decide)⟩

/-- C8 (as stated, refuted): when `propose` listed `L1` twice, `approve` of `L1`
runs to its end and so does a second `approve` of `L1` right after it. -/
theorem double_approve_succeeds :
    ¬ (∀ (calls : List (Env × Call)) (env1 env2 : Env) (P n : Nat) (L : permission_level),
        (run env1 (reached calls) (.approve P n L none)).status = none →
        has_auth2 env2 L = true →
        (run env2 (apply_action env1 (reached calls) (.approve P n L none))
          (.approve P n L none)).status = some .not_requested) := by
  intro h
  have h2 := h (repeated_history.take 1) (sample_env 6000000 [L1] accept_all)
    (sample_env 7000000 [L1] accept_all) 10 2 L1 (by decide) (by decide)
  revert h2
  decide

/-- C8 (amended): if `approve` of `L` runs to its end in a store where `L` occurs
once among the requested levels of the proposal, a second `approve` of `L` right
after it aborts with "approval is not on the list of requested approvals". -/
theorem second_approve_fails (env1 env2 : Env) (s : Database) (P n : Nat)
    (L : permission_level) (h1 h2 : Option Nat)
    (hst : (run env1 s (.approve P n L h1)).status = none)
    (hcount : (requested_levels s P n).count L = 1)
    (hauth : has_auth2 env2 L = true)
    (hhash : hash_ok env2 (apply_action env1 s (.approve P n L h1)) P n h2 = true) :
    (run env2 (apply_action env1 s (.approve P n L h1)) (.approve P n L h2)).status =
      some .not_requested := by
  rw [apply_action_ok env1 s _ hst] at hhash ⊢
  simp only [run] at hst hhash ⊢
  rcases approve_ok env1 s P n L h1 hst with ⟨apps, ha, hlt, hdb⟩ | ⟨hnone, apps, ho, hlt, hdb⟩
  · rw [hdb] at hhash ⊢
    refine (approve_not_requested env2 _ P n L h2 hauth hhash
      (Or.inl (by simp [Table.find_put_same])) ?_).1
    simp only [requested_levels, ha] at hcount
    simp only [requested_levels, Table.find_put_same]
    have hperm := levels_eraseIdx_perm L apps.requested_approvals hlt
    have hc := hperm.count_eq L
    rw [hcount, List.count_cons_self] at hc
    intro hmem
    have := List.count_pos_iff.mpr hmem
    omega
  · rw [hdb] at hhash ⊢
    refine (approve_not_requested env2 _ P n L h2 hauth hhash
      (Or.inr (by simp [Table.find_put_same])) ?_).1
    simp only [requested_levels, hnone, ho] at hcount
    simp only [requested_levels, hnone, Table.find_put_same]
    have hperm := eraseIdx_find_if_perm L apps.requested_approvals hlt
    have hc := hperm.count_eq L
    rw [hcount, List.count_cons_self] at hc
    intro hmem
    have := List.count_pos_iff.mpr hmem
    omega

theorem second_approve_fails_witness :
    (run (sample_env 7000000 [L1] accept_all)
      (apply_action (sample_env 6000000 [L1] accept_all) (reached (approved_history.take 1))
        (.approve 10 2 L1 none)) (.approve 10 2 L1 none)).status = some .not_requested :=
  second_approve_fails (sample_env 6000000 [L1] accept_all) (sample_env 7000000 [L1] accept_all)
    (reached (approved_history.take 1)) 10 2 L1 none none (by decide) (by decide) (by decide)
    (by decide)

/-- C9: when `approve` of `L` runs to its end at time `t` on a timestamped
approval record, the new `requested_approvals` is the old list without its first
entry of level `L` (the others in their order), the new `provided_approvals` is
the old list with `(L, t)` appended, both in the one stored record, and the
proposal table is untouched. -/
theorem approve_moves_entry (env : Env) (s : Database) (P n : Nat) (L : permission_level)
    (hash : Option Nat) (apps : approvals_info)
    (hst : (run env s (.approve P n L hash)).status = none)
    (ha : s.apptable.find P n = some apps) :
    ∃ before e after,
      apps.requested_approvals = before ++ e :: after ∧ e.level = L ∧
      (∀ x ∈ before, x.level ≠ L) ∧
      (apply_action env s (.approve P n L hash)).apptable.find P n =
        some { proposal_name := apps.proposal_name
               requested_approvals := before ++ after
               provided_approvals :=
                 apps.provided_approvals ++ [{ level := L, time := current_time_point env }] } ∧
      before ++ after = apps.requested_approvals.eraseP (fun a => decide (a.level = L)) ∧
      (apply_action env s (.approve P n L hash)).proptable = s.proptable := by
  rw [apply_action_ok env s _ hst]
  simp only [run] at hst ⊢
  rcases approve_ok env s P n L hash hst with ⟨apps', ha', hlt, hdb⟩ | ⟨hnone, -⟩
  · rw [ha] at ha'
    cases ha'
    obtain ⟨before, e, after, hxs, he, hb, her⟩ := find_if_split _ apps.requested_approvals hlt
    refine ⟨before, e, after, hxs, by simpa using he, ?_, ?_, ?_, ?_⟩
    · intro x hx
      simpa using hb x hx
    · rw [hdb]
      simp only [Table.find_put_same, her]
    · rw [← her, eraseIdx_find_if]
    · rw [hdb]
  · rw [ha] at hnone
    cases hnone

theorem approve_moves_entry_witness :
    ∃ before e after,
      [(⟨L1, 0⟩ : approval), ⟨L2, 0⟩] = before ++ e :: after ∧ e.level = L2 ∧
      (∀ x ∈ before, x.level ≠ L2) ∧
      (apply_action (sample_env 6000000 [L2] accept_all) (reached (approved_history.take 1))
          (.approve 10 2 L2 none)).apptable.find 10 2 =
        some { proposal_name := 2
               requested_approvals := before ++ after
               provided_approvals :=
                 ([] : List approval) ++
                   [⟨L2, current_time_point (sample_env 6000000 [L2] accept_all)⟩] } ∧
      before ++ after = [(⟨L1, 0⟩ : approval), ⟨L2, 0⟩].eraseP (fun a => decide (a.level = L2)) ∧
      (apply_action (sample_env 6000000 [L2] accept_all) (reached (approved_history.take 1))
          (.approve 10 2 L2 none)).proptable = (reached (approved_history.take 1)).proptable :=
  approve_moves_entry (sample_env 6000000 [L2] accept_all) (reached (approved_history.take 1))
    10 2 L2 none ⟨2, [⟨L1, 0⟩, ⟨L2, 0⟩], []⟩ (by decide) (by decide)

/-- C10: in a store where `L` is in `requested_approvals` of the proposal,
`approve` of `L` at time `t1` and then `unapprove` of `L` at time `t2`, each
called with the authority of `L` (the hash of `approve` absent or matching), both
run to their end; afterwards `requested_approvals` is the old list without its first
entry of level `L` and with `(L, t2)` appended, so `L` is requested again with
the timestamp `t2`; and `provided_approvals` is as it was before the `approve`
when `L` did not occur in it. -/
theorem approve_unapprove_roundtrip (env1 env2 : Env) (s : Database) (P n : Nat)
    (L : permission_level) (hash : Option Nat) (apps : approvals_info)
    (ha : s.apptable.find P n = some apps)
    (hL : L ∈ levels apps.requested_approvals)
    (hauth1 : has_auth2 env1 L = true) (hhash : hash_ok env1 s P n hash = true)
    (hauth2 : has_auth2 env2 L = true) :
    (run env1 s (.approve P n L hash)).status = none ∧
    (run env2 (apply_action env1 s (.approve P n L hash)) (.unapprove P n L)).status = none ∧
    ∃ a2, (apply_action env2 (apply_action env1 s (.approve P n L hash))
        (.unapprove P n L)).apptable.find P n = some a2 ∧
      a2.requested_approvals =
        apps.requested_approvals.eraseP (fun a => decide (a.level = L)) ++
          [{ level := L, time := current_time_point env2 }] ∧
      L ∈ levels a2.requested_approvals ∧
      a2.provided_approvals =
        (apps.provided_approvals ++ [(⟨L, current_time_point env1⟩ : approval)]).eraseP
          (fun a => decide (a.level = L)) ∧
      (L ∉ levels apps.provided_approvals → a2.provided_approvals = apps.provided_approvals) := by
  obtain ⟨hst1, hdb1⟩ := approve_timestamped env1 s P n L hash apps hauth1 hhash ha hL
  have hs1 : apply_action env1 s (.approve P n L hash) = (approve env1 s P n L hash).db :=
    apply_action_ok env1 s _ hst1
  rw [hs1, hdb1]
  have ha1 : ({ s with apptable := s.apptable.put P n (some
      { apps with
        provided_approvals :=
          apps.provided_approvals ++ [{ level := L, time := current_time_point env1 }]
        requested_approvals := apps.requested_approvals.eraseIdx
          (find_if (fun a => decide (a.level = L)) apps.requested_approvals) }) } :
      Database).apptable.find P n = _ := Table.find_put_same _ _ _ _
  have hL1 : L ∈ levels (apps.provided_approvals ++
      [{ level := L, time := current_time_point env1 }]) := by
    simp [levels]
  obtain ⟨hst2, hdb2⟩ := unapprove_timestamped env2 _ P n L _ hauth2 ha1 hL1
  refine ⟨hst1, hst2, ?_⟩
  rw [apply_action_ok env2 _ (.unapprove P n L) hst2]
  simp only [run, hdb2]
  refine ⟨_, Table.find_put_same _ _ _ _, ?_, ?_, ?_, ?_⟩
  · simp only [eraseIdx_find_if]
  · simp [levels]
  · simp only [eraseIdx_find_if]
  · intro hnot
    simp only [eraseIdx_find_if]
    rw [List.eraseP_append_right]
    · simp
    · intro x hx
      simp only [levels, List.mem_map, not_exists, not_and] at hnot
      simpa using hnot x hx

theorem approve_unapprove_roundtrip_witness :
    (run (sample_env 6000000 [L1] accept_all) (reached (approved_history.take 1))
      (.approve 10 2 L1 none)).status = none ∧
    (run (sample_env 9000000 [L1] accept_all)
      (apply_action (sample_env 6000000 [L1] accept_all) (reached (approved_history.take 1))
        (.approve 10 2 L1 none)) (.unapprove 10 2 L1)).status = none ∧
    ∃ a2, (apply_action (sample_env 9000000 [L1] accept_all)
        (apply_action (sample_env 6000000 [L1] accept_all) (reached (approved_history.take 1))
          (.approve 10 2 L1 none)) (.unapprove 10 2 L1)).apptable.find 10 2 = some a2 ∧
      a2.requested_approvals =
        [(⟨L1, 0⟩ : approval), ⟨L2, 0⟩].eraseP (fun a => decide (a.level = L1)) ++
          [{ level := L1, time := current_time_point (sample_env 9000000 [L1] accept_all) }] ∧
      L1 ∈ levels a2.requested_approvals ∧
      a2.provided_approvals =
        (([] : List approval) ++
          [(⟨L1, current_time_point (sample_env 6000000 [L1] accept_all)⟩ : approval)]).eraseP
          (fun a => decide (a.level = L1)) ∧
      (L1 ∉ levels ([] : List approval) → a2.provided_approvals = []) :=
  approve_unapprove_roundtrip (sample_env 6000000 [L1] accept_all)
    (sample_env 9000000 [L1] accept_all) (reached (approved_history.take 1)) 10 2 L1 none
    ⟨2, [⟨L1, 0⟩, ⟨L2, 0⟩], []⟩ (by decide) (by decide) (by decide) (by decide) (by decide)

/-! ## Cancel, propose, invalidate and the stores: the claims -/

/-- C11: for a stored proposal with an approval record and a canceler `C` other
than the proposer (holding `C`'s authority), `cancel` aborts with "cannot cancel
until expiration" while the decoded expiration is at or after the current time in
whole seconds (so in particular while it is in the future), and runs to its end,
deleting the proposal record and the approval record, once the expiration is
before the current time in whole seconds. When the canceler is the proposer no
expiry test is made and `cancel` runs to its end. -/
theorem cancel_expiry_gate :
    (∀ (env : Env) (s : Database) (P n C : Nat) (prop : proposal) (hdr : transaction_header),
      C ≠ P → has_auth env C = true → s.proptable.find P n = some prop →
      ((s.apptable.find P n).isSome = true ∨ (s.old_apptable.find P n).isSome = true) →
      env.unpack_header prop.packed_transaction = some hdr →
      (hdr.expiration ≥ time_point_sec (current_time_point env) →
        (run env s (.cancel P n C)).status = some .cannot_cancel ∧
        apply_action env s (.cancel P n C) = s) ∧
      (hdr.expiration < time_point_sec (current_time_point env) →
        (run env s (.cancel P n C)).status = none ∧
        (apply_action env s (.cancel P n C)).proptable.find P n = none ∧
        (apply_action env s (.cancel P n C)).apptable.find P n = none ∧
        ((s.apptable.find P n = none ∨ s.old_apptable.find P n = none) →
          (apply_action env s (.cancel P n C)).old_apptable.find P n = none))) ∧
    (∀ (env : Env) (s : Database) (P n : Nat) (prop : proposal),
      has_auth env P = true → s.proptable.find P n = some prop →
      ((s.apptable.find P n).isSome = true ∨ (s.old_apptable.find P n).isSome = true) →
      (run env s (.cancel P n P)).status = none ∧
      (apply_action env s (.cancel P n P)).proptable.find P n = none ∧
      (apply_action env s (.cancel P n P)).apptable.find P n = none ∧
      ((s.apptable.find P n = none ∨ s.old_apptable.find P n = none) →
        (apply_action env s (.cancel P n P)).old_apptable.find P n = none)) := by
  have pass : ∀ (env : Env) (s : Database) (P n C : Nat) (prop : proposal),
      has_auth env C = true → s.proptable.find P n = some prop →
      ((s.apptable.find P n).isSome = true ∨ (s.old_apptable.find P n).isSome = true) →
      (C = P ∨ ∃ hdr, env.unpack_header prop.packed_transaction = some hdr ∧
        hdr.expiration < time_point_sec (current_time_point env)) →
      (run env s (.cancel P n C)).status = none := by
    intro env s P n C prop hC hp hrec hgate
    obtain ⟨h1, h2⟩ := cancel_passes env s P n C prop hC hp hgate
    cases ha : s.apptable.find P n with
    | some a => exact (h1 a ha).1
    | none =>
      cases ho : s.old_apptable.find P n with
      | some a => exact (h2 ha a ho).1
      | none => simp [ha, ho] at hrec
  refine ⟨?_, ?_⟩
  · intro env s P n C prop hdr hne hC hp hrec hh
    refine ⟨?_, ?_⟩
    · intro hx
      have hst := cancel_blocked env s P n C prop hdr hC hp hne hh hx
      exact ⟨hst, apply_action_aborted env s _ _ hst⟩
    · intro hx
      have hst := pass env s P n C prop hC hp hrec (Or.inr ⟨hdr, hh, hx⟩)
      exact ⟨hst, cancel_deletes env s P n C hst⟩
  · intro env s P n prop hC hp hrec
    have hst := pass env s P n P prop hC hp hrec (Or.inl rfl)
    exact ⟨hst, cancel_deletes env s P n P hst⟩

theorem cancel_expiry_gate_witness :
    ((run (sample_env 100000000 [L3] accept_all) (reached approved_history)
        (.cancel 10 2 12)).status = some .cannot_cancel ∧
      apply_action (sample_env 100000000 [L3] accept_all) (reached approved_history)
        (.cancel 10 2 12) = reached approved_history) ∧
    ((run (sample_env 101000000 [L3] accept_all) (reached approved_history)
        (.cancel 10 2 12)).status = none ∧
      (apply_action (sample_env 101000000 [L3] accept_all) (reached approved_history)
        (.cancel 10 2 12)).proptable.find 10 2 = none ∧
      (apply_action (sample_env 101000000 [L3] accept_all) (reached approved_history)
        (.cancel 10 2 12)).apptable.find 10 2 = none ∧
      ((reached approved_history).apptable.find 10 2 = none ∨
          (reached approved_history).old_apptable.find 10 2 = none →
        (apply_action (sample_env 101000000 [L3] accept_all) (reached approved_history)
          (.cancel 10 2 12)).old_apptable.find 10 2 = none)) ∧
    (run (sample_env 8000000 [L1] accept_all) legacy_store (.cancel 10 2 10)).status = none :=
  ⟨(cancel_expiry_gate.1 (sample_env 100000000 [L3] accept_all) (reached approved_history)
      10 2 12 ⟨2, tx0⟩ ⟨100⟩ (by decide) (by decide) (by decide) (by decide) (by decide)).1
      (by decide),
    (cancel_expiry_gate.1 (sample_env 101000000 [L3] accept_all) (reached approved_history)
      10 2 12 ⟨2, tx0⟩ ⟨100⟩ (by decide) (by decide) (by decide) (by decide) (by decide)).2
      (by decide),
    (cancel_expiry_gate.2 (sample_env 8000000 [L1] accept_all) legacy_store 10 2 ⟨2, tx0⟩
      (by decide) (by decide) (by decide)).1⟩

/-- C12: when `cancel` runs to its end the identity has no proposal record and no
timestamped approval record, and no legacy approval record either (the store
holding at most one approval record for the identity, as every store reached
from the empty stores does); a second `cancel` right after it, by any
authenticated canceler, aborts with "proposal not found" and changes nothing. -/
theorem cancel_deletes_and_second_fails :
    (∀ (env env' : Env) (s : Database) (P n C C' : Nat),
      (run env s (.cancel P n C)).status = none →
      (s.apptable.find P n = none ∨ s.old_apptable.find P n = none) →
      has_auth env' C' = true →
      (apply_action env s (.cancel P n C)).proptable.find P n = none ∧
      (apply_action env s (.cancel P n C)).apptable.find P n = none ∧
      (apply_action env s (.cancel P n C)).old_apptable.find P n = none ∧
      (run env' (apply_action env s (.cancel P n C)) (.cancel P n C')).status =
        some .proposal_not_found ∧
      apply_action env' (apply_action env s (.cancel P n C)) (.cancel P n C') =
        apply_action env s (.cancel P n C)) ∧
    (∀ (calls : List (Env × Call)) (env env' : Env) (P n C C' : Nat),
      (run env (reached calls) (.cancel P n C)).status = none →
      has_auth env' C' = true →
      (apply_action env (reached calls) (.cancel P n C)).proptable.find P n = none ∧
      (apply_action env (reached calls) (.cancel P n C)).apptable.find P n = none ∧
      (apply_action env (reached calls) (.cancel P n C)).old_apptable.find P n = none ∧
      (run env' (apply_action env (reached calls) (.cancel P n C)) (.cancel P n C')).status =
        some .proposal_not_found ∧
      apply_action env' (apply_action env (reached calls) (.cancel P n C)) (.cancel P n C') =
        apply_action env (reached calls) (.cancel P n C)) := by
  have general : ∀ (env env' : Env) (s : Database) (P n C C' : Nat),
      (run env s (.cancel P n C)).status = none →
      (s.apptable.find P n = none ∨ s.old_apptable.find P n = none) →
      has_auth env' C' = true →
      (apply_action env s (.cancel P n C)).proptable.find P n = none ∧
      (apply_action env s (.cancel P n C)).apptable.find P n = none ∧
      (apply_action env s (.cancel P n C)).old_apptable.find P n = none ∧
      (run env' (apply_action env s (.cancel P n C)) (.cancel P n C')).status =
        some .proposal_not_found ∧
      apply_action env' (apply_action env s (.cancel P n C)) (.cancel P n C') =
        apply_action env s (.cancel P n C) := by
    intro env env' s P n C C' hst hone hC'
    obtain ⟨h1, h2, h3⟩ := cancel_deletes env s P n C hst
    have h4 := cancel_not_found env' _ P n C' hC' h1
    exact ⟨h1, h2, h3 hone, h4, apply_action_aborted env' _ _ _ h4⟩
  refine ⟨general, ?_⟩
  intro calls env env' P n C C' hst hC'
  exact general env env' (reached calls) P n C C' hst
    (Or.inr ((consistent_reached calls).2 P n)) hC'

theorem cancel_deletes_and_second_fails_witness :
    ((apply_action (sample_env 8000000 [L1] accept_all) legacy_store
        (.cancel 10 2 10)).proptable.find 10 2 = none ∧
      (apply_action (sample_env 8000000 [L1] accept_all) legacy_store
        (.cancel 10 2 10)).apptable.find 10 2 = none ∧
      (apply_action (sample_env 8000000 [L1] accept_all) legacy_store
        (.cancel 10 2 10)).old_apptable.find 10 2 = none ∧
      (run (sample_env 9000000 [L3] accept_all)
        (apply_action (sample_env 8000000 [L1] accept_all) legacy_store (.cancel 10 2 10))
        (.cancel 10 2 12)).status = some .proposal_not_found ∧
      apply_action (sample_env 9000000 [L3] accept_all)
        (apply_action (sample_env 8000000 [L1] accept_all) legacy_store (.cancel 10 2 10))
        (.cancel 10 2 12) =
        apply_action (sample_env 8000000 [L1] accept_all) legacy_store (.cancel 10 2 10)) ∧
    (run (sample_env 9000000 [L3] accept_all)
      (apply_action (sample_env 8000000 [L1] accept_all) (reached approved_history)
        (.cancel 10 2 10)) (.cancel 10 2 12)).status = some .proposal_not_found :=
  ⟨cancel_deletes_and_second_fails.1 (sample_env 8000000 [L1] accept_all)
      (sample_env 9000000 [L3] accept_all) legacy_store 10 2 10 12 (by decide) (by decide)
      (by decide),
    (cancel_deletes_and_second_fails.2 approved_history (sample_env 8000000 [L1] accept_all)
      (sample_env 9000000 [L3] accept_all) 10 2 10 12 (by decide) (by decide)).2.2.2.1⟩

/-- C13: when `propose` runs to its end, the proposal table holds for `(P, n)` a
record whose `packed_transaction` is the transaction bytes of the action as
given, and the approval table holds a record whose `requested_approvals` is the
list `R` entry by entry, each with timestamp 0, and whose `provided_approvals` is
empty. -/
theorem propose_creates_records (env : Env) (s : Database) (P n : Nat)
    (R : List permission_level) (tx : Bytes)
    (hst : (run env s (.propose P n R tx)).status = none) :
    (apply_action env s (.propose P n R tx)).proptable.find P n =
      some { proposal_name := n, packed_transaction := tx } ∧
    ∃ a, (apply_action env s (.propose P n R tx)).apptable.find P n = some a ∧
      a.proposal_name = n ∧
      a.requested_approvals.length = R.length ∧
      levels a.requested_approvals = R ∧
      (∀ e ∈ a.requested_approvals, e.time = 0) ∧
      a.provided_approvals = [] := by
  rw [apply_action_ok env s _ hst]
  simp only [run] at hst ⊢
  obtain ⟨-, -, hdb⟩ := propose_ok env s P n R tx hst
  rw [hdb]
  refine ⟨Table.find_put_same _ _ _ _, _, Table.find_put_same _ _ _ _, rfl, ?_, ?_, ?_, rfl⟩
  · simp
  · simp [levels, List.map_map, Function.comp_def]
  · intro e he
    simp only [List.mem_map] at he
    obtain ⟨l, -, rfl⟩ := he
    rfl

theorem propose_creates_records_witness :
    (apply_action (sample_env 5000000 [L1] accept_all) Database.empty
        (.propose 10 2 [L1, L2] tx0)).proptable.find 10 2 =
      some { proposal_name := 2, packed_transaction := tx0 } ∧
    ∃ a, (apply_action (sample_env 5000000 [L1] accept_all) Database.empty
        (.propose 10 2 [L1, L2] tx0)).apptable.find 10 2 = some a ∧
      a.proposal_name = 2 ∧
      a.requested_approvals.length = [L1, L2].length ∧
      levels a.requested_approvals = [L1, L2] ∧
      (∀ e ∈ a.requested_approvals, e.time = 0) ∧
      a.provided_approvals = [] :=
  propose_creates_records (sample_env 5000000 [L1] accept_all) Database.empty 10 2 [L1, L2] tx0
    (by decide)

/-- C14 (as stated, refuted): with a proposal `(10, 2)` stored, `propose` of the
same identity by its proposer with a transaction that has expired aborts with
"transaction expired", not with "proposal with the same name exists". -/
theorem propose_expired_before_duplicate :
    ¬ (∀ (env : Env) (s : Database) (P n : Nat) (R : List permission_level) (tx : Bytes)
        (prop : proposal),
        has_auth env P = true → s.proptable.find P n = some prop →
        (run env s (.propose P n R tx)).status = some .proposal_exists) := by
  intro h
  have h2 := h (sample_env 5000000 [L1] accept_all) (reached (approved_history.take 1)) 10 2
    [L1] tx_old ⟨2, tx0⟩ (by decide) (by decide)
  revert h2
  decide

/-- C14 (amended): in a store that holds a proposal record for `(P, n)`,
`propose(P, n, R, tx)` aborts for every `R` and `tx` and the store stays as it
was; called by the proposer it aborts with "proposal with the same name exists"
when the header of `tx` decodes and its expiration is at or after the current
time, with "transaction expired" when the expiration is earlier, and with a read
failure when the header does not decode. When no record is stored for `(P, n)`,
records of other proposers under the same name never make `propose` abort as a
duplicate. -/
theorem propose_duplicate_rejected :
    (∀ (env : Env) (s : Database) (P n : Nat) (R : List permission_level) (tx : Bytes)
      (prop : proposal),
      s.proptable.find P n = some prop →
      (run env s (.propose P n R tx)).status ≠ none ∧
      apply_action env s (.propose P n R tx) = s ∧
      (has_auth env P = true →
        (∀ hdr, env.unpack_header tx = some hdr →
          hdr.expiration ≥ time_point_sec (current_time_point env) →
          (run env s (.propose P n R tx)).status = some .proposal_exists) ∧
        (∀ hdr, env.unpack_header tx = some hdr →
          hdr.expiration < time_point_sec (current_time_point env) →
          (run env s (.propose P n R tx)).status = some .transaction_expired) ∧
        (env.unpack_header tx = none →
          (run env s (.propose P n R tx)).status = some .read))) ∧
    (∀ (env : Env) (s : Database) (P n : Nat) (R : List permission_level) (tx : Bytes),
      s.proptable.find P n = none →
      (run env s (.propose P n R tx)).status ≠ some .proposal_exists) := by
  refine ⟨?_, ?_⟩
  · intro env s P n R tx prop hp
    have hfail := propose_aborts_on_existing env s P n R tx prop hp
    refine ⟨hfail, ?_, ?_⟩
    · cases hst : (run env s (.propose P n R tx)).status with
      | none => exact absurd hst hfail
      | some e => exact apply_action_aborted env s _ e hst
    · intro hA
      refine ⟨?_, ?_, ?_⟩
      · intro hdr hh hx
        simp [run, propose, hh, hA, hx, hp, Run.abort]
      · intro hdr hh hx
        simp [run, propose, hh, hA, hx, Run.abort]
      · intro hh
        simp [run, propose, hh, Run.abort]
  · intro env s P n R tx hp
    simp only [run, propose, Run.abort, hp]
    repeat' split
    all_goals simp_all

theorem propose_duplicate_rejected_witness :
    ((run (sample_env 8000000 [L1] accept_all) (reached approved_history)
        (.propose 10 2 [L3] tx0)).status = some .proposal_exists ∧
      apply_action (sample_env 8000000 [L1] accept_all) (reached approved_history)
        (.propose 10 2 [L3] tx0) = reached approved_history) ∧
    (run (sample_env 8000000 [L2] accept_all) (reached approved_history)
      (.propose 11 2 [L3] tx0)).status ≠ some .proposal_exists :=
  ⟨⟨((propose_duplicate_rejected.1 (sample_env 8000000 [L1] accept_all)
        (reached approved_history) 10 2 [L3] tx0 ⟨2, tx0⟩ (by decide)).2.2 (by decide)).1
        ⟨100⟩ (by decide) (by decide),
      (propose_duplicate_rejected.1 (sample_env 8000000 [L1] accept_all)
        (reached approved_history) 10 2 [L3] tx0 ⟨2, tx0⟩ (by decide)).2.1⟩,
    propose_duplicate_rejected.2 (sample_env 8000000 [L2] accept_all)
      (reached approved_history) 11 2 [L3] tx0 (by decide)⟩

/-- C15: for an authenticated account `A`, `invalidate(A)` at time `T` runs to its
end and leaves for `A` the one registry record with `last_invalidation_time = T`
(a new record of account `A` when there was none, the old record with its time
overwritten otherwise); the records of all other accounts and all proposal and
approval tables are as they were; and a second `invalidate(A)` at the same time
changes nothing. -/
theorem invalidate_sets_watermark (env env' : Env) (s : Database) (A : Nat)
    (hA : has_auth env A = true) (hA' : has_auth env' A = true)
    (htime : current_time_point env' = current_time_point env) :
    (run env s (.invalidate A)).status = none ∧
    (s.inv_table A = none →
      (apply_action env s (.invalidate A)).inv_table A =
        some { account := A, last_invalidation_time := current_time_point env }) ∧
    (∀ it, s.inv_table A = some it →
      (apply_action env s (.invalidate A)).inv_table A =
        some { it with last_invalidation_time := current_time_point env }) ∧
    (∀ B, B ≠ A → (apply_action env s (.invalidate A)).inv_table B = s.inv_table B) ∧
    (apply_action env s (.invalidate A)).proptable = s.proptable ∧
    (apply_action env s (.invalidate A)).apptable = s.apptable ∧
    (apply_action env s (.invalidate A)).old_apptable = s.old_apptable ∧
    (run env' (apply_action env s (.invalidate A)) (.invalidate A)).status = none ∧
    apply_action env' (apply_action env s (.invalidate A)) (.invalidate A) =
      apply_action env s (.invalidate A) := by
  obtain ⟨hst, hdb⟩ := invalidate_db env s A hA
  have hs1 : apply_action env s (.invalidate A) = (invalidate env s A).db :=
    apply_action_ok env s _ hst
  obtain ⟨hst', hdb'⟩ := invalidate_db env' (invalidate env s A).db A hA'
  have hs2 : apply_action env' (invalidate env s A).db (.invalidate A) =
      (invalidate env' (invalidate env s A).db A).db := apply_action_ok env' _ _ hst'
  rw [hs1]
  refine ⟨hst, ?_, ?_, ?_, ?_, ?_, ?_, hst', ?_⟩
  · intro h
    simp [hdb, h]
  · intro it h
    simp [hdb, h]
  · intro B hB
    simp [hdb, hB]
  · rw [hdb]
  · rw [hdb]
  · rw [hdb]
  · rw [hs2, hdb', hdb]
    simp only [htime, if_true]
    congr 1
    funext k
    by_cases hk : k = A
    · simp [hk]
    · simp [hk]

theorem invalidate_sets_watermark_witness :
    (run (sample_env 7000000 [L2] accept_all) (reached approved_history)
      (.invalidate 11)).status = none ∧
    (apply_action (sample_env 7000000 [L2] accept_all) (reached approved_history)
      (.invalidate 11)).inv_table 11 =
        some { account := 11, last_invalidation_time := 7000000 } :=
  ⟨(invalidate_sets_watermark (sample_env 7000000 [L2] accept_all)
      (sample_env 7000000 [L2] accept_all) (reached approved_history) 11 (by decide)
      (by decide) rfl).1,
    (invalidate_sets_watermark (sample_env 7000000 [L2] accept_all)
      (sample_env 7000000 [L2] accept_all) (reached approved_history) 11 (by decide)
      (by decide) rfl).2.1 (by decide)⟩

/-- C16: an action on the identity `(P, n)` leaves the proposal record and both
approval records of every other identity as they were and does not write the
invalidation registry; `invalidate` leaves all proposal and approval tables as
they were; only `invalidate` writes the registry, and no action removes a
registry record. -/
theorem actions_frame :
    (∀ (env : Env) (s : Database) (call : Call) (P n : Nat),
      target call = some (P, n) →
      (∀ P' n', ¬ (P' = P ∧ n' = n) →
        (apply_action env s call).proptable.find P' n' = s.proptable.find P' n' ∧
        (apply_action env s call).apptable.find P' n' = s.apptable.find P' n' ∧
        (apply_action env s call).old_apptable.find P' n' = s.old_apptable.find P' n') ∧
      (apply_action env s call).inv_table = s.inv_table ∧
      (run env s call).db.inv_table = s.inv_table) ∧
    (∀ (env : Env) (s : Database) (A : Nat),
      (apply_action env s (.invalidate A)).proptable = s.proptable ∧
      (apply_action env s (.invalidate A)).apptable = s.apptable ∧
      (apply_action env s (.invalidate A)).old_apptable = s.old_apptable) ∧
    (∀ (env : Env) (s : Database) (call : Call),
      (apply_action env s call).inv_table ≠ s.inv_table → ∃ A, call = .invalidate A) ∧
    (∀ (env : Env) (s : Database) (call : Call) (A : Nat) (it : invalidation),
      s.inv_table A = some it → ∃ it', (apply_action env s call).inv_table A = some it') := by
  refine ⟨?_, apply_action_invalidate_tables, ?_, apply_action_keeps_registry⟩
  · intro env s call P n ht
    have hc : ∀ A, call ≠ .invalidate A := by
      rintro A rfl
      simp [target] at ht
    exact ⟨fun P' n' hk => apply_action_frame env s call P n ht P' n' hk,
      apply_action_inv_table env s call hc, run_inv_table env s call hc⟩
  · intro env s call hne
    by_contra hcon
    push_neg at hcon
    exact hne (apply_action_inv_table env s call hcon)

theorem actions_frame_witness :
    ((apply_action (sample_env 8000000 [L2] accept_all) (reached approved_history)
        (.propose 11 2 [L3] tx0)).apptable.find 10 2 =
        (reached approved_history).apptable.find 10 2 ∧
      (apply_action (sample_env 8000000 [L2] accept_all) (reached approved_history)
        (.propose 11 2 [L3] tx0)).inv_table = (reached approved_history).inv_table) ∧
    (apply_action (sample_env 8000000 [L2] accept_all) (reached approved_history)
        (.invalidate 11)).apptable = (reached approved_history).apptable ∧
    (∃ it, (apply_action (sample_env 9000000 [L1] accept_all) (reached invalidated_history)
        (.invalidate 10)).inv_table 11 = some it) :=
  ⟨⟨((actions_frame.1 (sample_env 8000000 [L2] accept_all) (reached approved_history)
        (.propose 11 2 [L3] tx0) 11 2 rfl).1 10 2 (by decide)).2.1,
      (actions_frame.1 (sample_env 8000000 [L2] accept_all) (reached approved_history)
        (.propose 11 2 [L3] tx0) 11 2 rfl).2.1⟩,
    (actions_frame.2.1 (sample_env 8000000 [L2] accept_all) (reached approved_history) 11).2.1,
    actions_frame.2.2.2 (sample_env 9000000 [L1] accept_all) (reached invalidated_history)
      (.invalidate 10) 11 ⟨11, 7000000⟩ (by decide)⟩

/-- C17: after `propose(P, n, R, tx)` ran to its end, through any sequence of
`approve`, `unapprove` and `invalidate` invocations (ending or aborting) and of
actions on other identities, the approval record of `(P, n)` is still stored, the
levels of `requested_approvals` and `provided_approvals` together are a
rearrangement of `R` (the same multiset), and the two lengths add up to the
length of `R`. -/
theorem approval_entries_conserved (env0 : Env) (s0 : Database) (P n : Nat)
    (R : List permission_level) (tx : Bytes) (calls : List (Env × Call))
    (h0 : (run env0 s0 (.propose P n R tx)).status = none)
    (hkeep : calls.all (fun c => keeps_proposal P n c.2) = true) :
    ∃ a, (run_all (apply_action env0 s0 (.propose P n R tx)) calls).apptable.find P n =
        some a ∧
      (levels a.requested_approvals ++ levels a.provided_approvals).Perm R ∧
      (∀ l, (levels a.requested_approvals ++ levels a.provided_approvals).count l =
        R.count l) ∧
      a.requested_approvals.length + a.provided_approvals.length = R.length := by
  have hstart : ∃ a, (apply_action env0 s0 (.propose P n R tx)).apptable.find P n = some a ∧
      (levels a.requested_approvals ++ levels a.provided_approvals).Perm R := by
    rw [apply_action_ok env0 s0 _ h0]
    simp only [run] at h0 ⊢
    obtain ⟨-, -, hdb⟩ := propose_ok env0 s0 P n R tx h0
    rw [hdb]
    refine ⟨_, Table.find_put_same _ _ _ _, ?_⟩
    simp [levels, List.map_map, Function.comp_def]
  obtain ⟨a, ha, hperm⟩ := kept_run_all calls _ P n R hkeep hstart
  refine ⟨a, ha, hperm, fun l => hperm.count_eq l, ?_⟩
  have hlen := hperm.length_eq
  simpa [levels] using hlen

theorem approval_entries_conserved_witness :
    ∃ a, (run_all (apply_action (sample_env 5000000 [L1] accept_all) Database.empty
        (.propose 10 2 [L1, L2] tx0)) (approved_history.drop 1 ++
          [(sample_env 8000000 [L1] accept_all, .unapprove 10 2 L1),
           (sample_env 8000000 [L3] accept_all, .approve 10 2 L3 none),
           (sample_env 8000000 [L2] accept_all, .propose 11 2 [L3] tx0)])).apptable.find 10 2 =
        some a ∧
      (levels a.requested_approvals ++ levels a.provided_approvals).Perm [L1, L2] ∧
      (∀ l, (levels a.requested_approvals ++ levels a.provided_approvals).count l =
        [L1, L2].count l) ∧
      a.requested_approvals.length + a.provided_approvals.length = [L1, L2].length :=
  approval_entries_conserved (sample_env 5000000 [L1] accept_all) Database.empty 10 2 [L1, L2]
    tx0 _ (by decide) (by decide)

/-- C18: for a stored transaction with decoded expiration `e` and the current
time truncated to whole seconds `s`, exactly one of the two gates passes: that
of `exec` (`e ≥ s`, the test `propose` makes as well) or that of `cancel` by a
canceler other than the proposer (`e < s`). `exec` aborts with "transaction
expired" exactly when its gate fails and such a `cancel` aborts with "cannot
cancel until expiration" exactly when its gate fails, so exactly one of the two
aborts happens; at `e = s` `exec` is let through and the `cancel` is rejected. -/
theorem expiry_gates_partition (env : Env) (s : Database) (P n E C : Nat) (prop : proposal)
    (hdr : transaction_header) (hE : has_auth env E = true) (hC : has_auth env C = true)
    (hne : C ≠ P) (hp : s.proptable.find P n = some prop)
    (hh : env.unpack_header prop.packed_transaction = some hdr) :
    (exec_gate env hdr = true ↔ hdr.expiration ≥ time_point_sec (current_time_point env)) ∧
    (cancel_gate env hdr = true ↔ hdr.expiration < time_point_sec (current_time_point env)) ∧
    (exec_gate env hdr = !cancel_gate env hdr) ∧
    ((run env s (.exec P n E)).status = some .transaction_expired ↔ exec_gate env hdr = false) ∧
    ((run env s (.cancel P n C)).status = some .cannot_cancel ↔ cancel_gate env hdr = false) ∧
    ((run env s (.exec P n E)).status = some .transaction_expired ↔
      ¬ (run env s (.cancel P n C)).status = some .cannot_cancel) ∧
    (hdr.expiration = time_point_sec (current_time_point env) →
      (run env s (.exec P n E)).status ≠ some .transaction_expired ∧
      (run env s (.cancel P n C)).status = some .cannot_cancel) ∧
    (∀ (s' : Database) (P' n' : Nat) (R : List permission_level) (tx : Bytes),
      has_auth env P' = true → env.unpack_header tx = some hdr →
      ((run env s' (.propose P' n' R tx)).status = some .transaction_expired ↔
        exec_gate env hdr = false)) := by
  have h1 := exec_expired_iff env s P n E prop hdr hE hp hh
  have h2 := cancel_blocked_iff env s P n C prop hdr hC hne hp hh
  have hpart : exec_gate env hdr = !cancel_gate env hdr := by
    by_cases hx : hdr.expiration < time_point_sec (current_time_point env)
    · simp [exec_gate, cancel_gate, hx]
    · simp [exec_gate, cancel_gate, hx, not_lt.mp hx]
  refine ⟨by simp [exec_gate], by simp [cancel_gate], hpart, h1, h2, ?_, ?_, ?_⟩
  · simp only [run]
    rw [h1, h2, hpart]
    cases cancel_gate env hdr <;> simp
  · intro heq
    simp only [run]
    rw [h2]
    have hc : cancel_gate env hdr = false := by simp [cancel_gate, heq]
    refine ⟨?_, hc⟩
    rw [Ne, h1, hpart, hc]
    simp
  · intro s' P' n' R tx hP' hh'
    exact propose_expired_iff env s' P' n' R tx hdr hP' hh'

theorem expiry_gates_partition_witness :
    (run (sample_env 100999999 [L3] accept_all) (reached approved_history)
        (.exec 10 2 12)).status ≠ some .transaction_expired ∧
    (run (sample_env 100999999 [L3] accept_all) (reached approved_history)
        (.cancel 10 2 12)).status = some .cannot_cancel :=
  (expiry_gates_partition (sample_env 100999999 [L3] accept_all) (reached approved_history)
    10 2 12 12 ⟨2, tx0⟩ ⟨100⟩ (by decide) (by decide) (by decide) (by decide)
    (by decide)).2.2.2.2.2.2.1 (by decide)

/-- C19: for 64-bit values the sender id `(uint128(p) << 64) | n` computed in
128-bit arithmetic is `p * 2^64 + n`: nothing is lost, its high 64 bits are `p`
and its low 64 bits are `n`, and two sender ids are equal exactly when both
names are equal. Every deferred transaction `exec` sends for `(P, n)` carries
this sender id. -/
theorem sender_id_injective (p n p' n' : Nat) (hp : p < 2 ^ 64) (hn : n < 2 ^ 64)
    (hp' : p' < 2 ^ 64) (hn' : n' < 2 ^ 64) :
    (sender_id p n = sender_id p' n' ↔ p = p' ∧ n = n') ∧
    sender_id p n = p * 2 ^ 64 + n ∧
    sender_id p n < 2 ^ 128 ∧
    sender_id p n / 2 ^ 64 = p ∧
    sender_id p n % 2 ^ 64 = n ∧
    (∀ (env : Env) (s : Database) (E : Nat),
      ∀ d ∈ (run env s (.exec p n E)).deferred, d.sender_id = sender_id p n) := by
  have e1 := sender_id_eq p n hp hn
  have e2 := sender_id_eq p' n' hp' hn'
  refine ⟨?_, e1, ?_, ?_, ?_, ?_⟩
  · rw [e1, e2]
    constructor
    · intro h
      omega
    · rintro ⟨rfl, rfl⟩
      rfl
  · rw [e1]; omega
  · rw [e1]; omega
  · rw [e1]; omega
  · intro env s E
    exact exec_deferred_sender env s p n E

theorem sender_id_injective_witness :
    (sender_id 10 2 = sender_id 2 10 ↔ (10 : Nat) = 2 ∧ (2 : Nat) = 10) ∧
    sender_id 10 2 = 10 * 2 ^ 64 + 2 :=
  ⟨(sender_id_injective 10 2 2 10 (by decide) (by decide) (by decide) (by decide)).1,
    (sender_id_injective 10 2 2 10 (by decide) (by decide) (by decide) (by decide)).2.1⟩

/-- C20: in every store reached from the empty stores an identity has a proposal
record exactly when it has a timestamped approval record, and the legacy approval
table has no rows; no action ever puts a row into the legacy table where there
was none. So in such a store, for an identity without a timestamped approval
record, authenticated `approve`, `unapprove`, `cancel` and `exec` all abort with
"proposal not found", and `propose` never aborts on inserting an approval record
under a key that is present. -/
theorem stores_consistent :
    (∀ (calls : List (Env × Call)) (P n : Nat),
      ((reached calls).proptable.find P n ≠ none ↔ (reached calls).apptable.find P n ≠ none) ∧
      (reached calls).old_apptable.find P n = none) ∧
    (∀ (env : Env) (s : Database) (call : Call) (P n : Nat),
      s.old_apptable.find P n = none →
      (apply_action env s call).old_apptable.find P n = none) ∧
    (∀ (calls : List (Env × Call)) (env : Env) (P n : Nat),
      (reached calls).apptable.find P n = none →
      (∀ L hash, has_auth2 env L = true →
        (run env (reached calls) (.approve P n L hash)).status = some .proposal_not_found) ∧
      (∀ L, has_auth2 env L = true →
        (run env (reached calls) (.unapprove P n L)).status = some .proposal_not_found) ∧
      (∀ C, has_auth env C = true →
        (run env (reached calls) (.cancel P n C)).status = some .proposal_not_found) ∧
      (∀ E, has_auth env E = true →
        (run env (reached calls) (.exec P n E)).status = some .proposal_not_found)) ∧
    (∀ (calls : List (Env × Call)) (env : Env) (P n : Nat) (R : List permission_level)
      (tx : Bytes),
      (run env (reached calls) (.propose P n R tx)).status ≠ some .key_exists) := by
  refine ⟨?_, apply_action_old_none, ?_, ?_⟩
  · intro calls P n
    obtain ⟨h1, h2⟩ := consistent_reached calls
    refine ⟨?_, h2 P n⟩
    have h := h1 P n
    cases hp : (reached calls).proptable.find P n <;>
      cases ha : (reached calls).apptable.find P n <;> simp_all
  · intro calls env P n ha
    obtain ⟨h1, h2⟩ := consistent_reached calls
    have hp : (reached calls).proptable.find P n = none := by
      have h := h1 P n
      rw [ha] at h
      cases hp : (reached calls).proptable.find P n with
      | none => rfl
      | some prop => rw [hp] at h; cases h
    exact ⟨fun L hash hL => approve_no_record env _ P n L hash hL hp ha (h2 P n),
      fun L hL => unapprove_no_record env _ P n L hL ha (h2 P n),
      fun C hC => cancel_not_found env _ P n C hC hp,
      fun E hE => exec_not_found env _ P n E hE hp⟩
  · intro calls env P n R tx
    exact propose_key_free env _ P n R tx ((consistent_reached calls).1 P n)

theorem stores_consistent_witness :
    (((reached approved_history).proptable.find 10 2 ≠ none ↔
        (reached approved_history).apptable.find 10 2 ≠ none) ∧
      (reached approved_history).old_apptable.find 10 2 = none) ∧
    (apply_action (sample_env 8000000 [L1] accept_all) (reached approved_history)
      (.approve 10 2 L1 none)).old_apptable.find 10 2 = none ∧
    (run (sample_env 8000000 [L1] accept_all) (reached approved_history)
      (.approve 10 3 L1 none)).status = some .proposal_not_found ∧
    (run (sample_env 8000000 [L1] accept_all) (reached approved_history)
      (.cancel 10 3 10)).status = some .proposal_not_found :=
  ⟨stores_consistent.1 approved_history 10 2,
    stores_consistent.2.1 (sample_env 8000000 [L1] accept_all) (reached approved_history)
      (.approve 10 2 L1 none) 10 2 (by decide),
    (stores_consistent.2.2.1 approved_history (sample_env 8000000 [L1] accept_all) 10 3
      (by decide)).1 L1 none (by decide),
    (stores_consistent.2.2.1 approved_history (sample_env 8000000 [L1] accept_all) 10 3
      (by decide)).2.2.1 10 (by decide)⟩

end multisig

end eosio
